import Mathlib

/-!
Verification of `scripts/build_admin_boundary_geojson.py`.

The Python source is shallowly embedded: coordinates (Python floats) are
modelled as rationals, Python tuples of ints as `ℤ × ℤ`, Python dicts as
insertion-ordered association lists, Python sets used only for membership as
`Finset`, and code that can raise an exception as `Except`-valued functions.
-/

namespace AreaKit

/-- Source: `SCALE = 1_000_000` from the source. -/
def SCALE : ℤ := 1000000

/-- Source: `Point = Tuple[int, int]`. -/
abbrev Point : Type := ℤ × ℤ

/-- Source: `Edge = Tuple[Point, Point]`. -/
abbrev Edge : Type := Point × Point

/-- Python tuple comparison `a <= b` on `Point`: lexicographic. -/
def pointLe (a b : Point) : Bool :=
  decide (a.1 < b.1 ∨ (a.1 = b.1 ∧ a.2 ≤ b.2))

/-- Source: `canonical_edge(a, b)`: `(a, b) if a <= b else (b, a)`. -/
def canonical_edge (a b : Point) : Edge :=
  if pointLe a b then (a, b) else (b, a)

/-- Python `round` on a rational: round half to even (banker's rounding),
which is what Python 3's `round` does on floats. -/
def pyRound (q : ℚ) : ℤ :=
  if Int.fract q < 1/2 then ⌊q⌋
  else if 1/2 < Int.fract q then ⌊q⌋ + 1
  else if Even ⌊q⌋ then ⌊q⌋ else ⌊q⌋ + 1

/-- JSON values, the universe that `json.load` produces.  Numeric leaves are
rationals (the embedding of Python floats). -/
inductive JVal where
  | null : JVal
  | bool (b : Bool) : JVal
  | num (q : ℚ) : JVal
  | str (s : String) : JVal
  | arr (l : List JVal) : JVal
  | obj (l : List (String × JVal)) : JVal

/-- First-match association-list lookup: the embedding of `dict.get` for
insertion-ordered dicts (Python dict keys are unique, so first match is the
match). -/
def assoc {α β : Type} [DecidableEq α] : List (α × β) → α → Option β
  | [], _ => none
  | p :: t, k => if p.1 = k then some p.2 else assoc t k

/-- Source: `d.get(k)` on a JSON object dict: absent key is Python `None`. -/
def jGet (g : List (String × JVal)) (k : String) : JVal :=
  (assoc g k).getD JVal.null

/-- Source: `d.get(k)` on a string-valued property dict, with Python's
`str(x or "")` collapsing an absent key (`None`) to `""`. -/
def rawget (props : List (String × String)) (k : String) : String :=
  (assoc props k).getD ""

/-- Python `a or b` on strings: `b` when `a` is falsy (empty), else `a`. -/
def pyOr (a b : String) : String := if a = "" then b else a

/-- Python `str.strip()`: drop leading and trailing whitespace. -/
def pyStrip (s : String) : String :=
  ⟨((s.data.dropWhile Char.isWhitespace).reverse.dropWhile Char.isWhitespace).reverse⟩

/-- Source: `v == "s"` in Python: `True` only when `v` is that string (comparisons
across types are `False`). -/
def isStr (v : JVal) (s : String) : Bool :=
  match v with
  | .str t => t = s
  | _ => false

/-- Source: `isinstance(v, list)`. -/
def isArr (v : JVal) : Bool :=
  match v with
  | .arr _ => true
  | _ => false

/-- Source: `normalize_polygons(geometry)` (source lines 34–43).  The input is the
function's declared `dict` argument (an association list); Python's falsy
check `not geometry` holds exactly for the empty dict (absent geometry is
passed as `{}` by every caller via `ft.get("geometry") or {}`). -/
def normalize_polygons (geometry : List (String × JVal)) : List JVal :=
  match geometry with
  | [] => []
  | _ :: _ =>
    let geom_type := jGet geometry "type"
    let coords := jGet geometry "coordinates"
    if isStr geom_type "Polygon" ∧ isArr coords then [coords]
    else if isStr geom_type "MultiPolygon" ∧ isArr coords then
      match coords with
      | .arr l => l
      | _ => []
    else []

/-- Source: `float(v)` in Python, on the JSON values where it succeeds without
parsing: numbers and booleans.  (`float` also parses numeric strings;
string-valued coordinates do not occur in GeoJSON coordinate positions and
are modelled as the error path together with the values where Python
raises `TypeError`.) -/
def pyFloat : JVal → Except Unit ℚ
  | .num q => .ok q
  | .bool b => .ok (if b then 1 else 0)
  | _ => .error ()

/-- Source: `len(v)` in Python: defined for lists, strings and dicts, raises
`TypeError` otherwise. -/
def pyLen : JVal → Except Unit ℕ
  | .arr l => .ok l.length
  | .str s => .ok s.length
  | .obj l => .ok l.length
  | _ => .error ()

/-- Source: `quantize_point(coord)` (source lines 50–51):
`(int(round(float(coord[0]) * SCALE)), int(round(float(coord[1]) * SCALE)))`.
Indexing a non-list or a too-short list is the error path. -/
def quantize_point : JVal → Except Unit Point
  | .arr coord => do
    let x ← pyFloat (coord.getD 0 .null)
    let y ← pyFloat (coord.getD 1 .null)
    .ok (pyRound (x * (SCALE : ℚ)), pyRound (y * (SCALE : ℚ)))
  | _ => .error ()

/-- Source: `dequantize_point(point)` (source lines 54–55): `[p0/SCALE, p1/SCALE]`. -/
def dequantize_point (point : Point) : List ℚ :=
  [(point.1 : ℚ) / (SCALE : ℚ), (point.2 : ℚ) / (SCALE : ℚ)]

/-! ### Basic lemmas about the order and rounding -/

theorem pointLe_total (a b : Point) : pointLe a b = true ∨ pointLe b a = true := by
  simp only [pointLe, decide_eq_true_eq]
  omega

theorem pointLe_antisymm {a b : Point} (h1 : pointLe a b = true)
    (h2 : pointLe b a = true) : a = b := by
  simp only [pointLe, decide_eq_true_eq] at h1 h2
  obtain ⟨a1, a2⟩ := a
  obtain ⟨b1, b2⟩ := b
  simp only [Prod.mk.injEq]
  omega

theorem canonical_edge_comm (a b : Point) :
    canonical_edge a b = canonical_edge b a := by
  unfold canonical_edge
  rcases h1 : pointLe a b with _ | _ <;> rcases h2 : pointLe b a with _ | _
  · rcases pointLe_total a b with h | h
    · rw [h1] at h; cases h
    · rw [h2] at h; cases h
  · simp
  · simp
  · simp [pointLe_antisymm h1 h2]

theorem pyRound_abs_le (q : ℚ) : |(pyRound q : ℚ) - q| ≤ 1/2 := by
  have hf0 : (0 : ℚ) ≤ Int.fract q := Int.fract_nonneg q
  have hf1 : Int.fract q < 1 := Int.fract_lt_one q
  have hq : (⌊q⌋ : ℚ) = q - Int.fract q := by
    rw [Int.self_sub_fract]
  by_cases h1 : Int.fract q < 1/2
  · rw [pyRound, if_pos h1, abs_le]
    constructor <;> rw [hq] <;> linarith
  · by_cases h2 : 1/2 < Int.fract q
    · rw [pyRound, if_neg h1, if_pos h2, abs_le]
      push_cast
      constructor <;> rw [hq] <;> linarith
    · have heq : Int.fract q = 1/2 := le_antisymm (not_lt.mp h2) (not_lt.mp h1)
      rw [pyRound, if_neg h1, if_neg h2]
      by_cases h3 : Even ⌊q⌋ <;> [rw [if_pos h3]; rw [if_neg h3]] <;>
        rw [abs_le] <;> push_cast <;> constructor <;> rw [hq, heq] <;> linarith

theorem pyRound_intCast (n : ℤ) : pyRound (n : ℚ) = n := by
  unfold pyRound
  rw [Int.fract_intCast, Int.floor_intCast]
  norm_num

/-- Requantizing a dequantized point recovers it exactly. -/
theorem quantize_dequantize (p : Point) :
    quantize_point (.arr ((dequantize_point p).map JVal.num)) = .ok p := by
  obtain ⟨a, b⟩ := p
  have hS : ((SCALE : ℤ) : ℚ) ≠ 0 := by norm_num [SCALE]
  simp only [dequantize_point, List.map_cons, List.map_nil, quantize_point,
    pyFloat, List.getD, List.get?, Option.getD_some, bind, Except.bind, pure]
  rw [div_mul_cancel₀ _ hS, div_mul_cancel₀ _ hS]
  rw [pyRound_intCast, pyRound_intCast]

/-- The per-component round-trip bound. -/
theorem pyRound_div_bound (x : ℚ) :
    |((pyRound (x * (SCALE : ℚ)) : ℚ)) / (SCALE : ℚ) - x| < 1/1000000 := by
  have h := pyRound_abs_le (x * (SCALE : ℚ))
  have hS : (0 : ℚ) < ((SCALE : ℤ) : ℚ) := by norm_num [SCALE]
  rw [div_sub' _ _ _ (ne_of_gt hS), abs_div, abs_of_pos hS, div_lt_iff₀ hS]
  rw [mul_comm ((SCALE : ℤ) : ℚ) x]
  calc |(pyRound (x * (SCALE : ℚ)) : ℚ) - x * (SCALE : ℚ)| ≤ 1/2 := h
  _ < 1/1000000 * ((SCALE : ℤ) : ℚ) := by norm_num [SCALE]

/-- C6: `canonical_edge` is symmetric and always stores the lexicographically
smaller point first. -/
theorem canonical_edge_symm_min (a b : Point) :
    canonical_edge a b = canonical_edge b a ∧
      pointLe (canonical_edge a b).1 (canonical_edge a b).2 = true := by
  refine ⟨canonical_edge_comm a b, ?_⟩
  unfold canonical_edge
  rcases h : pointLe a b with _ | _
  · rcases pointLe_total a b with h' | h'
    · rw [h] at h'; cases h'
    · simpa using h'
  · simpa using h

/-- C5: quantization is deterministic (the same rational coordinate pair
always yields the same `Point`), and dequantizing the quantized point differs
from the original by less than one unit at scale 1,000,000 in each
component. -/
theorem quantize_deterministic_roundtrip (x y : ℚ) :
    quantize_point (.arr [.num x, .num y]) = quantize_point (.arr [.num x, .num y]) ∧
    ∃ p : Point, quantize_point (.arr [.num x, .num y]) = .ok p ∧
      |(dequantize_point p).getD 0 0 - x| < 1/1000000 ∧
      |(dequantize_point p).getD 1 0 - y| < 1/1000000 := by
  refine ⟨rfl, (pyRound (x * (SCALE : ℚ)), pyRound (y * (SCALE : ℚ))), ?_, ?_, ?_⟩
  · rfl
  · simpa only [dequantize_point, List.getD, List.get?, Option.getD_some] using
      pyRound_div_bound x
  · simpa only [dequantize_point, List.getD, List.get?, Option.getD_some] using
      pyRound_div_bound y

theorem isStr_eq_true_iff {v : JVal} {s : String} : isStr v s = true ↔ v = .str s := by
  cases v <;> simp [isStr]

/-- C3: the Geometry Normalizer contract.  `Polygon` with a coordinate list
yields a one-element list wrapping the coordinates; `MultiPolygon` with a
coordinate list yields the coordinate array as a list; any other type,
absent geometry (the empty/falsy dict) or malformed coordinates yield `[]`.
The embedding is a total function, so no exception can propagate. -/
theorem normalize_polygons_contract (g : List (String × JVal)) :
    (isStr (jGet g "type") "Polygon" = true → isArr (jGet g "coordinates") = true →
      normalize_polygons g = [jGet g "coordinates"]) ∧
    (∀ l, isStr (jGet g "type") "MultiPolygon" = true → jGet g "coordinates" = JVal.arr l →
      normalize_polygons g = l) ∧
    ((isStr (jGet g "type") "Polygon" = false ∧ isStr (jGet g "type") "MultiPolygon" = false) ∨
        isArr (jGet g "coordinates") = false →
      normalize_polygons g = []) := by
  obtain _ | ⟨p, t⟩ := g
  · exact ⟨fun ht => by simp [jGet, assoc, isStr] at ht,
      fun l ht => by simp [jGet, assoc, isStr] at ht,
      fun _ => rfl⟩
  refine ⟨?_, ?_, ?_⟩
  · intro ht hc
    simp only [normalize_polygons]
    rw [if_pos ⟨ht, hc⟩]
  · intro l ht hc
    rw [isStr_eq_true_iff] at ht
    simp only [normalize_polygons, ht, hc]
    simp [isStr, isArr]
  · intro h
    simp only [normalize_polygons]
    rcases h with ⟨hp, hm⟩ | harr
    · simp [hp, hm]
    · simp only [harr, Bool.false_eq_true, and_false, if_false]

theorem normalize_polygons_contract_witness :
    normalize_polygons [("type", JVal.str "Polygon"), ("coordinates", JVal.arr [])]
      = [JVal.arr []] :=
  (normalize_polygons_contract
    [("type", JVal.str "Polygon"), ("coordinates", JVal.arr [])]).1 (by decide) (by decide)

/-! ### Municipality names and the Grouper -/

/-- The dynamically-typed argument of `canonical_municipality`: the source
dispatches on `isinstance(source, dict)`; the two call sites pass either a
property dict (string-valued in this embedding) or a (possibly empty)
string. -/
inductive PyObj where
  | dict (props : List (String × String)) : PyObj
  | str (s : String) : PyObj

/-- Source: `canonical_municipality(source)` (source lines 24–31). -/
def canonical_municipality : PyObj → String
  | .dict props =>
    let city := pyStrip (rawget props "N03_004")
    let ward := pyStrip (rawget props "N03_005")
    if city ≠ "" ∧ ward ≠ "" then city ++ ward else city
  | .str s => pyStrip s

/-- Source: `canonical_pref_name(props)` (source lines 46–47). -/
def canonical_pref_name (props : List (String × String)) : String :=
  pyStrip (pyOr (rawget props "pref_name") (rawget props "N03_001"))

/-- A GeoJSON feature as the builders consume it: a string-valued property
dict and a geometry dict.  An absent `properties`/`geometry` member is the
empty dict (Python's `ft.get(...) or {}`). -/
structure Feat where
  properties : List (String × String)
  geometry : List (String × JVal)

/-- One value of the Grouper's `grouped` dict (source lines 155–161). -/
structure GEntry where
  props : List (String × String)
  municipality : String
  polygons : List JVal

/-- An output feature: the properties the source writes and the geometry
dict. -/
structure OutFeature where
  props : List (String × String)
  geometry : List (String × JVal)

/-- The sentinel municipality name meaning "unassigned territory". -/
def sentinel : String := "所属未定地"

/-- The administrative code of a feature: `str(props.get("N03_007") or "").strip()`. -/
def ftCode (ft : Feat) : String := pyStrip (rawget ft.properties "N03_007")

/-- One iteration of the Grouper's accumulation loop (source lines 142–161). -/
def groupStep (g : List (String × GEntry)) (ft : Feat) : List (String × GEntry) :=
  let props := ft.properties
  let area_code := pyStrip (rawget props "N03_007")
  let municipality := canonical_municipality (.dict props)
  if area_code = "" ∨ municipality = "" then g
  else if municipality = sentinel then g
  else
    let polygons := normalize_polygons ft.geometry
    if polygons.isEmpty then g
    else
      match assoc g area_code with
      | some _ =>
        g.map fun p =>
          if p.1 = area_code then (p.1, { p.2 with polygons := p.2.polygons ++ polygons }) else p
      | none => g ++ [(area_code, ⟨props, municipality, polygons⟩)]

/-- The Feature the Grouper emits for one accumulated code
(source lines 164–191). -/
def emitGrouped (area_code : String) (e : GEntry) : OutFeature :=
  { props := [("N03_001", pyStrip (rawget e.props "N03_001")),
              ("N03_002", pyStrip (rawget e.props "N03_002")),
              ("N03_003", pyStrip (rawget e.props "N03_003")),
              ("N03_004", pyStrip (rawget e.props "N03_004")),
              ("N03_005", pyStrip (rawget e.props "N03_005")),
              ("N03_007", area_code),
              ("area_id", area_code),
              ("area_name", e.municipality),
              ("municipality", e.municipality),
              ("pref_name", pyStrip (rawget e.props "N03_001"))]
    geometry :=
      if e.polygons.length = 1 then
        [("type", JVal.str "Polygon"), ("coordinates", e.polygons.headD .null)]
      else
        [("type", JVal.str "MultiPolygon"), ("coordinates", JVal.arr e.polygons)] }

/-- Source: `build_grouped_features(features)` (source lines 140–192).  Python's
`sorted` over the distinct accumulated keys is modelled by insertion sort
(on a duplicate-free list the sorted permutation is unique, so any sort
models it). -/
def build_grouped_features (features : List Feat) : List OutFeature :=
  let grouped := features.foldl groupStep []
  (List.insertionSort (· ≤ ·) (grouped.map Prod.fst)).map fun c =>
    emitGrouped c ((assoc grouped c).getD ⟨[], "", []⟩)

/-! ### Claim-side helpers and association-list lemmas -/

/-- The administrative code an output feature carries. -/
def outCode (f : OutFeature) : String := rawget f.props "N03_007"

/-- The municipality name of a raw feature, as the Grouper computes it. -/
def ftMuni (ft : Feat) : String := canonical_municipality (.dict ft.properties)

/-- The polygons a raw feature contributes. -/
def polysOf (ft : Feat) : List JVal := normalize_polygons ft.geometry

/-- A feature survives the Grouper's skip checks: non-blank code, non-blank
non-sentinel municipality, non-empty polygon list. -/
def contributing (ft : Feat) : Bool :=
  decide (ftCode ft ≠ "" ∧ ftMuni ft ≠ "" ∧ ftMuni ft ≠ sentinel ∧
    (polysOf ft).isEmpty = false)

/-- All polygons accumulated under code `c`, in first-seen order. -/
def accPolys (fs : List Feat) (c : String) : List JVal :=
  (fs.filter fun ft => contributing ft && decide (ftCode ft = c)).flatMap polysOf

theorem assoc_append_some {α β : Type} [DecidableEq α] {l₁ : List (α × β)}
    (l₂ : List (α × β)) {k : α} {v : β} (h : assoc l₁ k = some v) :
    assoc (l₁ ++ l₂) k = some v := by
  induction l₁ with
  | nil => simp [assoc] at h
  | cons p t ih =>
    rw [List.cons_append, assoc]
    rw [assoc] at h
    by_cases hp : p.1 = k
    · rwa [if_pos hp] at h ⊢
    · rw [if_neg hp] at h ⊢
      exact ih h

theorem assoc_append_none {α β : Type} [DecidableEq α] {l₁ : List (α × β)}
    (l₂ : List (α × β)) {k : α} (h : assoc l₁ k = none) :
    assoc (l₁ ++ l₂) k = assoc l₂ k := by
  induction l₁ with
  | nil => simp
  | cons p t ih =>
    rw [List.cons_append, assoc]
    rw [assoc] at h
    by_cases hp : p.1 = k
    · rw [if_pos hp] at h; cases h
    · rw [if_neg hp] at h ⊢
      exact ih h

theorem assoc_map_update {α β : Type} [DecidableEq α] (g : List (α × β)) (c : α)
    (f : β → β) (k : α) :
    assoc (g.map fun p => if p.1 = c then (p.1, f p.2) else p) k =
      if k = c then (assoc g k).map f else assoc g k := by
  induction g with
  | nil => simp [assoc]
  | cons p t ih =>
    by_cases hp : p.1 = k
    · by_cases hc : p.1 = c
      · have hkc : k = c := by rw [← hp, hc]
        simp [assoc, hp, hc, hkc]
      · have hkc : ¬(k = c) := fun hh => hc (hp.trans hh)
        simp [assoc, hp, hc, hkc]
    · by_cases hc : p.1 = c
      · have hck : ¬(c = k) := fun hh => hp (hc.trans hh)
        simp [assoc, hp, hc, hck, ih]
      · simp [assoc, hp, hc, ih]

theorem keys_map_update {α β : Type} [DecidableEq α] (g : List (α × β)) (c : α)
    (f : β → β) :
    (g.map fun p => if p.1 = c then (p.1, f p.2) else p).map Prod.fst =
      g.map Prod.fst := by
  rw [List.map_map]
  apply List.map_congr_left
  intro p _
  by_cases hc : p.1 = c <;> simp [hc]

theorem assoc_eq_none_iff {α β : Type} [DecidableEq α] (l : List (α × β)) (k : α) :
    assoc l k = none ↔ k ∉ l.map Prod.fst := by
  induction l with
  | nil => simp [assoc]
  | cons p t ih =>
    rw [assoc]
    by_cases hp : p.1 = k
    · simp [hp]
    · simp [hp, ih, Ne.symm hp]

theorem assoc_isSome_of_mem_keys {α β : Type} [DecidableEq α] {l : List (α × β)}
    {k : α} (h : k ∈ l.map Prod.fst) : ∃ v, assoc l k = some v := by
  cases ha : assoc l k with
  | none => exact absurd h ((assoc_eq_none_iff l k).mp ha)
  | some v => exact ⟨v, rfl⟩

theorem assoc_of_mem_nodup {α β : Type} [DecidableEq α] {l : List (α × β)}
    {k : α} {v : β} (hn : (l.map Prod.fst).Nodup) (h : (k, v) ∈ l) :
    assoc l k = some v := by
  induction l with
  | nil => cases h
  | cons p t ih =>
    rw [List.map_cons, List.nodup_cons] at hn
    rcases List.mem_cons.mp h with h | h
    · subst h; simp [assoc]
    · rw [assoc]
      have hk : p.1 ≠ k := by
        intro he
        exact hn.1 (he ▸ (List.mem_map.mpr ⟨(k, v), h, rfl⟩))
      rw [if_neg hk]
      exact ih hn.2 h

/-! ### Grouper fold lemmas -/

/-- Source: `grouped[area_code]["polygons"].extend(polygons)`. -/
def extendPolys (ps : List JVal) (e : GEntry) : GEntry :=
  { e with polygons := e.polygons ++ ps }

theorem groupStep_skip (g : List (String × GEntry)) (ft : Feat)
    (h : contributing ft = false) : groupStep g ft = g := by
  by_cases h1 : pyStrip (rawget ft.properties "N03_007") = "" ∨
      canonical_municipality (.dict ft.properties) = ""
  · simp [groupStep, h1]
  · by_cases h2 : canonical_municipality (.dict ft.properties) = sentinel
    · simp [groupStep, h1, h2]
    · by_cases h3 : (normalize_polygons ft.geometry).isEmpty
      · simp [groupStep, h1, h2, h3]
      · exfalso
        rw [contributing, decide_eq_false_iff_not] at h
        push_neg at h1
        exact h ⟨h1.1, h1.2, h2, Bool.not_eq_true _ ▸ h3⟩

theorem groupStep_cont (g : List (String × GEntry)) (ft : Feat)
    (h : contributing ft = true) :
    groupStep g ft =
      match assoc g (ftCode ft) with
      | some _ => g.map fun p =>
          if p.1 = ftCode ft then (p.1, extendPolys (polysOf ft) p.2) else p
      | none => g ++ [(ftCode ft, ⟨ft.properties, ftMuni ft, polysOf ft⟩)] := by
  obtain ⟨hc, hm, hs, hp⟩ := of_decide_eq_true h
  rw [ftCode] at hc
  rw [ftMuni] at hm hs
  rw [polysOf] at hp
  simp only [groupStep]
  rw [if_neg (by rw [not_or]; exact ⟨hc, hm⟩), if_neg hs, if_neg (by rw [hp]; simp)]
  rfl

theorem groupStep_cont_some {g : List (String × GEntry)} {ft : Feat} {e : GEntry}
    (h : contributing ft = true) (ha : assoc g (ftCode ft) = some e) :
    groupStep g ft = g.map fun p =>
      if p.1 = ftCode ft then (p.1, extendPolys (polysOf ft) p.2) else p := by
  rw [groupStep_cont g ft h, ha]

theorem groupStep_cont_none {g : List (String × GEntry)} {ft : Feat}
    (h : contributing ft = true) (ha : assoc g (ftCode ft) = none) :
    groupStep g ft = g ++ [(ftCode ft, ⟨ft.properties, ftMuni ft, polysOf ft⟩)] := by
  rw [groupStep_cont g ft h, ha]

theorem accPolys_cons (ft : Feat) (fs : List Feat) (c : String) :
    accPolys (ft :: fs) c =
      if contributing ft = true ∧ ftCode ft = c then polysOf ft ++ accPolys fs c
      else accPolys fs c := by
  rw [accPolys, List.filter_cons]
  by_cases h1 : contributing ft = true <;> by_cases h2 : ftCode ft = c <;>
    simp [h1, h2, accPolys]

theorem foldl_groupStep_keys_nodup (fs : List Feat) :
    ∀ g : List (String × GEntry), (g.map Prod.fst).Nodup →
      ((fs.foldl groupStep g).map Prod.fst).Nodup := by
  induction fs with
  | nil => intro g hg; simpa using hg
  | cons ft fs ih =>
    intro g hg
    rw [List.foldl_cons]
    apply ih
    by_cases h : contributing ft = true
    · cases ha : assoc g (ftCode ft) with
      | some e =>
        rw [groupStep_cont_some h ha, keys_map_update]
        exact hg
      | none =>
        rw [groupStep_cont_none h ha, List.map_append, List.nodup_append]
        refine ⟨hg, by simp, ?_⟩
        intro a hag hae
        simp only [List.map_cons, List.map_nil, List.mem_singleton] at hae
        subst hae
        exact (assoc_eq_none_iff g (ftCode ft)).mp ha hag
    · rw [groupStep_skip g ft (Bool.not_eq_true _ ▸ h)]
      exact hg

theorem mem_keys_of_assoc_some {α β : Type} [DecidableEq α] {l : List (α × β)}
    {k : α} {v : β} (h : assoc l k = some v) : k ∈ l.map Prod.fst := by
  by_contra hm
  rw [(assoc_eq_none_iff l k).mpr hm] at h
  cases h

theorem foldl_groupStep_keys_mem (fs : List Feat) :
    ∀ (g : List (String × GEntry)) (c : String),
      c ∈ (fs.foldl groupStep g).map Prod.fst ↔
        c ∈ g.map Prod.fst ∨ ∃ ft ∈ fs, contributing ft = true ∧ ftCode ft = c := by
  induction fs with
  | nil => intro g c; simp
  | cons ft fs ih =>
    intro g c
    rw [List.foldl_cons, ih]
    by_cases h : contributing ft = true
    · cases ha : assoc g (ftCode ft) with
      | some e =>
        rw [groupStep_cont_some h ha, keys_map_update]
        constructor
        · rintro (hc | ⟨ft', hmem, hft'⟩)
          · exact Or.inl hc
          · exact Or.inr ⟨ft', List.mem_cons_of_mem ft hmem, hft'⟩
        · rintro (hc | ⟨ft', hmem, hft'⟩)
          · exact Or.inl hc
          · rcases List.mem_cons.mp hmem with he | he
            · subst he
              exact Or.inl (hft'.2 ▸ mem_keys_of_assoc_some ha)
            · exact Or.inr ⟨ft', he, hft'⟩
      | none =>
        rw [groupStep_cont_none h ha, List.map_append]
        simp only [List.map_cons, List.map_nil, List.mem_append, List.mem_singleton]
        constructor
        · rintro ((hc | hc) | ⟨ft', hmem, hft'⟩)
          · exact Or.inl hc
          · exact Or.inr ⟨ft, List.mem_cons_self ft fs, h, hc.symm⟩
          · exact Or.inr ⟨ft', List.mem_cons_of_mem ft hmem, hft'⟩
        · rintro (hc | ⟨ft', hmem, hft'⟩)
          · exact Or.inl (Or.inl hc)
          · rcases List.mem_cons.mp hmem with he | he
            · subst he
              exact Or.inl (Or.inr hft'.2.symm)
            · exact Or.inr ⟨ft', he, hft'⟩
    · rw [groupStep_skip g ft (Bool.not_eq_true _ ▸ h)]
      constructor
      · rintro (hc | ⟨ft', hmem, hft'⟩)
        · exact Or.inl hc
        · exact Or.inr ⟨ft', List.mem_cons_of_mem ft hmem, hft'⟩
      · rintro (hc | ⟨ft', hmem, hft'⟩)
        · exact Or.inl hc
        · rcases List.mem_cons.mp hmem with he | he
          · subst he; exact absurd hft'.1 h
          · exact Or.inr ⟨ft', he, hft'⟩

theorem foldl_groupStep_assoc_polys (fs : List Feat) :
    ∀ (g : List (String × GEntry)) (c : String) (e' : GEntry),
      assoc (fs.foldl groupStep g) c = some e' →
        (∃ e, assoc g c = some e ∧ e'.polygons = e.polygons ++ accPolys fs c) ∨
        (assoc g c = none ∧ e'.polygons = accPolys fs c) := by
  induction fs with
  | nil =>
    intro g c e' h
    simp only [List.foldl_nil] at h
    left
    exact ⟨e', h, by simp [accPolys]⟩
  | cons ft fs ih =>
    intro g c e' h
    rw [List.foldl_cons] at h
    rw [accPolys_cons]
    by_cases hc : contributing ft = true
    · by_cases hcode : ftCode ft = c
      · subst hcode
        rw [if_pos ⟨hc, rfl⟩]
        cases ha : assoc g (ftCode ft) with
        | some e0 =>
          rw [groupStep_cont_some hc ha] at h
          rcases ih _ _ _ h with ⟨e1, he1, hp1⟩ | ⟨he1, _⟩
          · rw [assoc_map_update, if_pos rfl, ha, Option.map_some'] at he1
            injection he1 with he1
            subst he1
            left
            refine ⟨e0, rfl, ?_⟩
            rw [hp1]
            simp [extendPolys]
          · rw [assoc_map_update, if_pos rfl, ha, Option.map_some'] at he1
            simp at he1
        | none =>
          rw [groupStep_cont_none hc ha] at h
          rcases ih _ _ _ h with ⟨e1, he1, hp1⟩ | ⟨he1, _⟩
          · rw [assoc_append_none _ ha, assoc, if_pos rfl] at he1
            injection he1 with he1
            subst he1
            right
            exact ⟨rfl, by rw [hp1]⟩
          · rw [assoc_append_none _ ha, assoc, if_pos rfl] at he1
            simp at he1
      · rw [if_neg (fun hh => hcode hh.2)]
        cases ha : assoc g (ftCode ft) with
        | some e0 =>
          rw [groupStep_cont_some hc ha] at h
          rcases ih _ _ _ h with ⟨e1, he1, hp1⟩ | ⟨he1, hp1⟩
          · rw [assoc_map_update, if_neg (fun hh => hcode hh.symm)] at he1
            exact Or.inl ⟨e1, he1, hp1⟩
          · rw [assoc_map_update, if_neg (fun hh => hcode hh.symm)] at he1
            exact Or.inr ⟨he1, hp1⟩
        | none =>
          rw [groupStep_cont_none hc ha] at h
          rcases ih _ _ _ h with ⟨e1, he1, hp1⟩ | ⟨he1, hp1⟩
          · cases hag : assoc g c with
            | some e2 =>
              rw [assoc_append_some _ hag] at he1
              injection he1 with he1
              subst he1
              exact Or.inl ⟨e2, rfl, hp1⟩
            | none =>
              rw [assoc_append_none _ hag, assoc, if_neg hcode] at he1
              simp [assoc] at he1
          · cases hag : assoc g c with
            | some e2 =>
              rw [assoc_append_some _ hag] at he1
              simp at he1
            | none => exact Or.inr ⟨rfl, hp1⟩
    · rw [groupStep_skip g ft (Bool.not_eq_true _ ▸ hc)] at h
      rw [if_neg (fun hh => hc hh.1)]
      exact ih _ _ _ h

theorem outCode_emitGrouped (c : String) (e : GEntry) :
    outCode (emitGrouped c e) = c := by
  simp [outCode, emitGrouped, rawget, assoc]

theorem headD_mem {α : Type} {l : List α} (d : α) (h : l ≠ []) : l.headD d ∈ l := by
  cases l with
  | nil => exact absurd rfl h
  | cons a t => simp

/-- C4: the Grouper emits exactly one Feature per distinct non-skipped
administrative code, in ascending code order; the geometry is a Polygon
wrapping the single accumulated polygon when exactly one polygon
accumulated under the code, and a MultiPolygon carrying all accumulated
polygons (in first-seen order) otherwise. -/
theorem grouped_features_spec (fs : List Feat) :
    ((build_grouped_features fs).map outCode).Sorted (· < ·) ∧
    (∀ c, c ∈ (build_grouped_features fs).map outCode ↔
      ∃ ft ∈ fs, contributing ft = true ∧ ftCode ft = c) ∧
    (∀ f ∈ build_grouped_features fs,
      ((accPolys fs (outCode f)).length = 1 →
        f.geometry = [("type", JVal.str "Polygon"),
          ("coordinates", (accPolys fs (outCode f)).headD .null)]) ∧
      ((accPolys fs (outCode f)).length ≠ 1 →
        f.geometry = [("type", JVal.str "MultiPolygon"),
          ("coordinates", JVal.arr (accPolys fs (outCode f)))])) := by
  have hkeysnd : ((fs.foldl groupStep []).map Prod.fst).Nodup :=
    foldl_groupStep_keys_nodup fs [] (by simp)
  have hmap : (build_grouped_features fs).map outCode
      = List.insertionSort (· ≤ ·) ((fs.foldl groupStep []).map Prod.fst) := by
    simp only [build_grouped_features, List.map_map]
    calc (List.insertionSort (· ≤ ·) ((fs.foldl groupStep []).map Prod.fst)).map _
        = (List.insertionSort (· ≤ ·) ((fs.foldl groupStep []).map Prod.fst)).map id :=
          List.map_congr_left (fun a _ => outCode_emitGrouped a _)
    _ = _ := List.map_id _
  have hsortnd :
      (List.insertionSort (· ≤ ·) ((fs.foldl groupStep []).map Prod.fst)).Nodup :=
    (List.perm_insertionSort _ _).symm.nodup hkeysnd
  refine ⟨?_, ?_, ?_⟩
  · rw [hmap]
    exact List.Sorted.lt_of_le (List.sorted_insertionSort _ _) hsortnd
  · intro c
    rw [hmap, (List.perm_insertionSort _ _).mem_iff, foldl_groupStep_keys_mem]
    simp
  · intro f hf
    simp only [build_grouped_features, List.mem_map] at hf
    obtain ⟨c, hcmem, rfl⟩ := hf
    rw [outCode_emitGrouped]
    have hckeys : c ∈ (fs.foldl groupStep []).map Prod.fst :=
      (List.perm_insertionSort _ _).subset hcmem
    obtain ⟨e, he⟩ := assoc_isSome_of_mem_keys hckeys
    rw [he, Option.getD_some]
    have hpolys : e.polygons = accPolys fs c := by
      rcases foldl_groupStep_assoc_polys fs [] c e he with ⟨e0, he0, _⟩ | ⟨_, hp⟩
      · simp [assoc] at he0
      · exact hp
    constructor
    · intro hlen
      simp only [emitGrouped, hpolys]
      rw [if_pos hlen]
    · intro hlen
      simp only [emitGrouped, hpolys]
      rw [if_neg hlen]

/-- Concrete input for the C4 witness: two Polygon features under the same
administrative code. -/
def wfeat1 : Feat :=
  ⟨[("N03_007", "13101"), ("N03_004", "千代田区")],
   [("type", JVal.str "Polygon"), ("coordinates", JVal.arr [])]⟩

def wfeat2 : Feat :=
  ⟨[("N03_007", "13101"), ("N03_004", "千代田区")],
   [("type", JVal.str "Polygon"), ("coordinates", JVal.arr [JVal.null])]⟩

def wfs : List Feat := [wfeat1, wfeat2]

theorem grouped_features_spec_witness :
    ("13101" ∈ (build_grouped_features wfs).map outCode) ∧
    ((build_grouped_features wfs).headD ⟨[], []⟩).geometry
      = [("type", JVal.str "MultiPolygon"),
         ("coordinates", JVal.arr (accPolys wfs
           (outCode ((build_grouped_features wfs).headD ⟨[], []⟩))))] := by
  have hspec := grouped_features_spec wfs
  have hmem : "13101" ∈ (build_grouped_features wfs).map outCode :=
    (hspec.2.1 "13101").mpr
      ⟨wfeat1, List.mem_cons_self wfeat1 [wfeat2], by decide, by decide⟩
  refine ⟨hmem, ?_⟩
  have hne : build_grouped_features wfs ≠ [] := by
    intro he
    rw [he] at hmem
    simp at hmem
  exact (hspec.2.2 _ (headD_mem _ hne)).2 (by decide)

/-! ### The Edge Classifier (source lines 223–234) -/

/-- The municipalities an edge is assigned to, given its ownership counter
(`municipalities = list(muni_counter.keys())`; a single owner keeps the edge
only when its count is exactly 1, several owners all keep it). -/
def classifyEdge (c : List (String × ℕ)) : List String :=
  match c with
  | [(m, k)] => if k = 1 then [m] else []
  | ms => ms.map Prod.fst

/-- Source: `municipality_edges[muni].add(edge)` on a Python `set` modelled as a
duplicate-free list. -/
def addEdgeSet (e : Edge) (l : List Edge) : List Edge :=
  if e ∈ l then l else l ++ [e]

/-- One `municipality_edges[muni].add(edge)` on the `defaultdict(set)`. -/
def addMuniEdge (d : List (String × List Edge)) (m : String) (e : Edge) :
    List (String × List Edge) :=
  match assoc d m with
  | some _ => d.map fun p => if p.1 = m then (p.1, addEdgeSet e p.2) else p
  | none => d ++ [(m, [e])]

/-- The classifier loop (source lines 223–234): builds `municipality_edges`
from `edge_muni_counts`. -/
def classifyCounts (counts : List (Edge × List (String × ℕ))) :
    List (String × List Edge) :=
  counts.foldl
    (fun d ec => (classifyEdge ec.2).foldl (fun d' m => addMuniEdge d' m ec.1) d) []

/-- A municipality's classified edge set. -/
def edgesOf (d : List (String × List Edge)) (m : String) : List Edge :=
  (assoc d m).getD []

theorem mem_addEdgeSet (e0 e : Edge) (l : List Edge) :
    e ∈ addEdgeSet e0 l ↔ e ∈ l ∨ e = e0 := by
  unfold addEdgeSet
  by_cases h : e0 ∈ l
  · rw [if_pos h]
    exact ⟨Or.inl, fun x => x.elim id (fun he => he ▸ h)⟩
  · rw [if_neg h]
    simp

theorem mem_edgesOf_addMuniEdge (d : List (String × List Edge)) (m0 : String)
    (e0 : Edge) (m : String) (e : Edge) :
    e ∈ edgesOf (addMuniEdge d m0 e0) m ↔ e ∈ edgesOf d m ∨ (m = m0 ∧ e = e0) := by
  unfold addMuniEdge
  cases ha : assoc d m0 with
  | some l0 =>
    unfold edgesOf
    rw [assoc_map_update]
    by_cases hm : m = m0
    · subst hm
      rw [if_pos rfl, ha, Option.map_some', Option.getD_some, Option.getD_some,
        mem_addEdgeSet]
      simp
    · rw [if_neg hm]
      simp [hm]
  | none =>
    unfold edgesOf
    by_cases hm : m = m0
    · subst hm
      rw [assoc_append_none _ ha, ha, assoc, if_pos rfl]
      simp
    · cases hag : assoc d m with
      | some l =>
        rw [assoc_append_some _ hag]
        simp [hm]
      | none =>
        rw [assoc_append_none _ hag, assoc, if_neg (fun hh => hm hh.symm)]
        simp [hm, assoc]

theorem mem_edgesOf_foldl_add (ms : List String) (e0 : Edge) :
    ∀ (d : List (String × List Edge)) (m : String) (e : Edge),
      e ∈ edgesOf (ms.foldl (fun d' m' => addMuniEdge d' m' e0) d) m ↔
        e ∈ edgesOf d m ∨ (m ∈ ms ∧ e = e0) := by
  induction ms with
  | nil => simp
  | cons m0 ms ih =>
    intro d m e
    rw [List.foldl_cons, ih, mem_edgesOf_addMuniEdge]
    constructor
    · rintro ((he | ⟨rfl, rfl⟩) | ⟨hm, rfl⟩)
      · exact Or.inl he
      · exact Or.inr ⟨List.mem_cons_self _ _, rfl⟩
      · exact Or.inr ⟨List.mem_cons_of_mem _ hm, rfl⟩
    · rintro (he | ⟨hm, rfl⟩)
      · exact Or.inl (Or.inl he)
      · rcases List.mem_cons.mp hm with rfl | hm'
        · exact Or.inl (Or.inr ⟨rfl, rfl⟩)
        · exact Or.inr ⟨hm', rfl⟩

theorem mem_edgesOf_classify_aux (counts : List (Edge × List (String × ℕ))) :
    ∀ (d : List (String × List Edge)) (m : String) (e : Edge),
      e ∈ edgesOf (counts.foldl
          (fun d ec => (classifyEdge ec.2).foldl (fun d' m' => addMuniEdge d' m' ec.1) d)
          d) m ↔
        e ∈ edgesOf d m ∨ ∃ c, (e, c) ∈ counts ∧ m ∈ classifyEdge c := by
  induction counts with
  | nil => simp
  | cons ec counts ih =>
    intro d m e
    rw [List.foldl_cons, ih, mem_edgesOf_foldl_add]
    constructor
    · rintro ((he | ⟨hm, rfl⟩) | ⟨c, hc, hmc⟩)
      · exact Or.inl he
      · exact Or.inr ⟨ec.2, by rw [Prod.mk.eta]; exact List.mem_cons_self _ _, hm⟩
      · exact Or.inr ⟨c, List.mem_cons_of_mem _ hc, hmc⟩
    · rintro (he | ⟨c, hc, hmc⟩)
      · exact Or.inl (Or.inl he)
      · rcases List.mem_cons.mp hc with heq | hc'
        · subst heq
          exact Or.inl (Or.inr ⟨hmc, rfl⟩)
        · exact Or.inr ⟨c, hc', hmc⟩

/-- C2: the Edge Classifier trichotomy.  For an edge of the accumulated
ownership map: with two or more referencing municipalities it lands in every
referencing municipality's boundary set (and no other); with exactly one
referencing municipality and count 1 it lands only in that municipality's
set; with one municipality and count ≠ 1 it lands in no set. -/
theorem classifier_trichotomy (counts : List (Edge × List (String × ℕ)))
    (hn : (counts.map Prod.fst).Nodup) (e : Edge) (c : List (String × ℕ))
    (hec : (e, c) ∈ counts) :
    (2 ≤ c.length → ∀ m, e ∈ edgesOf (classifyCounts counts) m ↔ m ∈ c.map Prod.fst) ∧
    (∀ m0, c = [(m0, 1)] → ∀ m, e ∈ edgesOf (classifyCounts counts) m ↔ m = m0) ∧
    (∀ m0 k, c = [(m0, k)] → k ≠ 1 → ∀ m, e ∉ edgesOf (classifyCounts counts) m) := by
  have hmem : ∀ m, e ∈ edgesOf (classifyCounts counts) m ↔ m ∈ classifyEdge c := by
    intro m
    rw [classifyCounts, mem_edgesOf_classify_aux]
    constructor
    · rintro (he | ⟨c', hc', hmc⟩)
      · simp [edgesOf, assoc] at he
      · have hcc : c' = c := by
          have ha1 := assoc_of_mem_nodup hn hc'
          have ha2 := assoc_of_mem_nodup hn hec
          rw [ha1] at ha2
          exact Option.some_injective _ ha2
        exact hcc ▸ hmc
    · intro hmc
      exact Or.inr ⟨c, hec, hmc⟩
  refine ⟨?_, ?_, ?_⟩
  · intro hlen m
    rw [hmem m]
    obtain _ | ⟨x, _ | ⟨y, t⟩⟩ := c
    · simp at hlen
    · simp at hlen
    · exact Iff.rfl
  · intro m0 hc m
    subst hc
    rw [hmem m]
    simp [classifyEdge]
  · intro m0 k hc hk m
    subst hc
    rw [hmem m]
    simp [classifyEdge, hk]

theorem classifier_trichotomy_witness :
    ((0, 0), (0, 1)) ∈ edgesOf (classifyCounts
      [((((0 : ℤ), (0 : ℤ)), ((0 : ℤ), (1 : ℤ))), [("A", 1), ("B", 1)])]) "A" :=
  ((classifier_trichotomy
      [((((0 : ℤ), (0 : ℤ)), ((0 : ℤ), (1 : ℤ))), [("A", 1), ("B", 1)])]
      (by decide)
      (((0 : ℤ), (0 : ℤ)), ((0 : ℤ), (1 : ℤ)))
      [("A", 1), ("B", 1)]
      (by decide)).1 (by decide) "A").mpr (by decide)

/-! ### The Line Merger (source lines 89–137)

`merge_edges_to_lines` iterates over Python sets and dicts whose iteration
order is an implementation detail; the embedding fixes first-insertion order
(the input edge list's order stands for the set's iteration order).  The
walk loop is embedded with explicit fuel; `walk` supplies fuel strictly
larger than the number of unvisited canonical edges, which
`walkAux_fuel_irrel` shows is enough for the result to be the loop's true
fixpoint. -/

/-- Source: `adjacency[a].add(b)` on a Python set modelled as a duplicate-free list. -/
def addNbr (l : List Point) (q : Point) : List Point :=
  if q ∈ l then l else l ++ [q]

/-- One edge's contribution to the adjacency of `p`:
`adjacency[a].add(b); adjacency[b].add(a)` restricted to the sets at `p`. -/
def nbrStep (p : Point) (l : List Point) (e : Edge) : List Point :=
  let l1 := if e.1 = p then addNbr l e.2 else l
  if e.2 = p then addNbr l1 e.1 else l1

/-- Source: `adjacency[p]` (source lines 93–96). -/
def nbrs (E : List Edge) (p : Point) : List Point := E.foldl (nbrStep p) []

/-- The keys of the adjacency dict, in insertion order. -/
def nodeStep (l : List Point) (e : Edge) : List Point := addNbr (addNbr l e.1) e.2

/-- Source: `adjacency.items()` key order (source line 121). -/
def nodes (E : List Edge) : List Point := E.foldl nodeStep []

/-- The set of canonical forms of the input edges: every edge the walk can
ever mark visited lies in this finite set. -/
def cEdgeSet (E : List Edge) : Finset Edge :=
  (E.map fun e => canonical_edge e.1 e.2).toFinset

/-- The body of `walk` (source lines 101–118), with explicit fuel.  Each
iteration computes the unvisited non-backtracking candidates, stops on no
candidate or on a branch point, otherwise consumes the edge to
`candidates[0]`, and stops after closing a loop back to `start`. -/
def walkAux (E : List Edge) (start : Point) :
    ℕ → Finset Edge → List Point → Point → Point → List Point × Finset Edge
  | 0, visited, path, _, _ => (path, visited)
  | fuel + 1, visited, path, prev, current =>
    let candidates := (nbrs E current).filter
      fun pt => decide (pt ≠ prev ∧ canonical_edge current pt ∉ visited)
    match candidates with
    | [] => (path, visited)
    | np :: _ =>
      if (nbrs E current).length ≠ 2 then (path, visited)
      else
        let visited' := insert (canonical_edge current np) visited
        if np = start then (path ++ [np], visited')
        else walkAux E start fuel visited' (path ++ [np]) current np

/-- Source: `walk(start, nxt)`: seed the path with `[start, nxt]`, mark the first
edge visited, then loop.  The fuel exceeds the number of unvisited canonical
edges, which the termination lemmas show suffices. -/
def walk (E : List Edge) (visited : Finset Edge) (start nxt : Point) :
    List Point × Finset Edge :=
  let visited' := insert (canonical_edge start nxt) visited
  walkAux E start ((cEdgeSet E \ visited').card + 1) visited' [start, nxt] start nxt

/-- Source: `lines.append(walk(a, b))` with the shared `visited` set threaded
through. -/
def walkAppend (E : List Edge) (st : Finset Edge × List (List Point))
    (a b : Point) : Finset Edge × List (List Point) :=
  let r := walk E st.1 a b
  (r.2, st.2 ++ [r.1])

/-- Phase 1 (source lines 120–128): open chains rooted at non-degree-2
nodes. -/
def phase1 (E : List Edge) : Finset Edge × List (List Point) :=
  (nodes E).foldl
    (fun st node =>
      if (nbrs E node).length = 2 then st
      else
        (nbrs E node).foldl
          (fun st' nb =>
            if canonical_edge node nb ∈ st'.1 then st' else walkAppend E st' node nb)
          st)
    (∅, [])

/-- One iteration of phase 2 (source lines 130–135): remaining closed
loops. -/
def phase2Step (E : List Edge) (st : Finset Edge × List (List Point))
    (e : Edge) : Finset Edge × List (List Point) :=
  if e ∈ st.1 then st else walkAppend E st e.1 e.2

/-- The `(visited, lines)` state after both phases. -/
def mergeState (E : List Edge) : Finset Edge × List (List Point) :=
  E.foldl (phase2Step E) (phase1 E)

/-- Source: `merge_edges_to_lines(edges)` (source lines 89–137).  The final line
keeps walks of at least two points and dequantizes them. -/
def merge_edges_to_lines (E : List Edge) : List (List (List ℚ)) :=
  match E with
  | [] => []
  | _ :: _ =>
    ((mergeState E).2.filter fun l => decide (2 ≤ l.length)).map
      fun l => l.map dequantize_point

/-- The consecutive-point edges of a polyline, canonicalized. -/
def cEdgesOf : List Point → List Edge
  | a :: b :: rest => canonical_edge a b :: cEdgesOf (b :: rest)
  | _ => []

/-! ### Adjacency lemmas -/

theorem mem_addNbr (q x : Point) (l : List Point) :
    x ∈ addNbr l q ↔ x ∈ l ∨ x = q := by
  unfold addNbr
  by_cases h : q ∈ l
  · rw [if_pos h]
    exact ⟨Or.inl, fun hh => hh.elim id (fun he => he ▸ h)⟩
  · rw [if_neg h]
    simp

theorem mem_nbrStep (p : Point) (l : List Point) (e : Edge) (q : Point) :
    q ∈ nbrStep p l e ↔ q ∈ l ∨ (e.1 = p ∧ q = e.2) ∨ (e.2 = p ∧ q = e.1) := by
  unfold nbrStep
  by_cases h1 : e.1 = p <;> by_cases h2 : e.2 = p <;>
    simp [h1, h2, mem_addNbr, or_assoc]

theorem mem_nbrs_aux (E : List Edge) (p q : Point) :
    ∀ l : List Point, q ∈ E.foldl (nbrStep p) l ↔
      q ∈ l ∨ ∃ e ∈ E, (e.1 = p ∧ e.2 = q) ∨ (e.2 = p ∧ e.1 = q) := by
  induction E with
  | nil => simp
  | cons e E ih =>
    intro l
    rw [List.foldl_cons, ih, mem_nbrStep]
    constructor
    · rintro ((hq | ⟨h1, h2⟩ | ⟨h1, h2⟩) | ⟨e', he', hp⟩)
      · exact Or.inl hq
      · exact Or.inr ⟨e, List.mem_cons_self _ _, Or.inl ⟨h1, h2.symm⟩⟩
      · exact Or.inr ⟨e, List.mem_cons_self _ _, Or.inr ⟨h1, h2.symm⟩⟩
      · exact Or.inr ⟨e', List.mem_cons_of_mem _ he', hp⟩
    · rintro (hq | ⟨e', he', hp⟩)
      · exact Or.inl (Or.inl hq)
      · rcases List.mem_cons.mp he' with rfl | he''
        · rcases hp with ⟨h1, h2⟩ | ⟨h1, h2⟩
          · exact Or.inl (Or.inr (Or.inl ⟨h1, h2.symm⟩))
          · exact Or.inl (Or.inr (Or.inr ⟨h1, h2.symm⟩))
        · exact Or.inr ⟨e', he'', hp⟩

theorem mem_nbrs (E : List Edge) (p q : Point) :
    q ∈ nbrs E p ↔ ∃ e ∈ E, (e.1 = p ∧ e.2 = q) ∨ (e.2 = p ∧ e.1 = q) := by
  rw [nbrs, mem_nbrs_aux]
  simp

theorem canonical_edge_mem_cEdgeSet {E : List Edge} {p q : Point}
    (h : q ∈ nbrs E p) : canonical_edge p q ∈ cEdgeSet E := by
  rw [mem_nbrs] at h
  obtain ⟨e, he, ⟨h1, h2⟩ | ⟨h1, h2⟩⟩ := h
  · rw [cEdgeSet, List.mem_toFinset, List.mem_map]
    exact ⟨e, he, by rw [h1, h2]⟩
  · rw [cEdgeSet, List.mem_toFinset, List.mem_map]
    exact ⟨e, he, by rw [canonical_edge_comm, h1, h2]⟩

theorem sdiff_insert_card_lt {α : Type} [DecidableEq α] {s t : Finset α} {a : α}
    (ha : a ∈ s) (hn : a ∉ t) :
    (s \ insert a t).card < (s \ t).card := by
  have he : s \ insert a t = (s \ t).erase a := by
    ext x
    simp only [Finset.mem_sdiff, Finset.mem_insert, Finset.mem_erase]
    tauto
  rw [he]
  exact Finset.card_erase_lt_of_mem (Finset.mem_sdiff.mpr ⟨ha, hn⟩)

theorem cEdgesOf_concat :
    ∀ (l : List Point) (c x : Point), l.getLast? = some c →
      cEdgesOf (l ++ [x]) = cEdgesOf l ++ [canonical_edge c x] := by
  intro l
  induction l with
  | nil => intro c x h; cases h
  | cons a t ih =>
    intro c x h
    cases t with
    | nil =>
      simp only [List.getLast?_singleton, Option.some.injEq] at h
      subst h
      rfl
    | cons b t' =>
      rw [List.getLast?_cons_cons] at h
      have h2 := ih c x h
      show canonical_edge a b :: cEdgesOf ((b :: t') ++ [x])
          = canonical_edge a b :: (cEdgesOf (b :: t') ++ [canonical_edge c x])
      exact congrArg _ h2

/-- The walk-loop invariant: with enough fuel, the loop returns the input
path extended by one point per newly visited edge; the new edges are the new
consecutive canonical edges of the path, are pairwise distinct, were
unvisited, and all lie in the input's canonical edge set. -/
theorem walkAux_spec (E : List Edge) (start : Point) :
    ∀ (fuel : ℕ) (visited : Finset Edge) (path : List Point) (prev current : Point),
      (cEdgeSet E \ visited).card < fuel →
      path.getLast? = some current →
      ∃ (ext : List Point) (new : List Edge),
        walkAux E start fuel visited path prev current
          = (path ++ ext, visited ∪ new.toFinset) ∧
        cEdgesOf (path ++ ext) = cEdgesOf path ++ new ∧
        new.Nodup ∧
        (∀ e ∈ new, e ∉ visited ∧ e ∈ cEdgeSet E) ∧
        ext.length = new.length := by
  intro fuel
  induction fuel with
  | zero => intro visited path prev current h1 _; omega
  | succ fuel ih =>
    intro visited path prev current h1 hlast
    simp only [walkAux]
    split
    · exact ⟨[], [], by simp, by simp, by simp, by simp, rfl⟩
    · next np rest hcand =>
      have hnp : np ∈ (nbrs E current).filter
          (fun pt => decide (pt ≠ prev ∧ canonical_edge current pt ∉ visited)) := by
        rw [hcand]; exact List.mem_cons_self _ _
      have hmem := List.mem_filter.mp hnp
      have hprops := of_decide_eq_true hmem.2
      have hce : canonical_edge current np ∈ cEdgeSet E :=
        canonical_edge_mem_cEdgeSet hmem.1
      by_cases hdeg : (nbrs E current).length ≠ 2
      · rw [if_pos hdeg]
        exact ⟨[], [], by simp, by simp, by simp, by simp, rfl⟩
      · rw [if_neg hdeg]
        by_cases hstart : np = start
        · rw [if_pos hstart]
          refine ⟨[np], [canonical_edge current np], ?_, ?_, by simp, ?_, rfl⟩
          · have hfin : visited ∪ [canonical_edge current np].toFinset
                = insert (canonical_edge current np) visited := by
              ext x
              simp [Or.comm]
            rw [hfin]
          · exact cEdgesOf_concat path current np hlast
          · intro e he
            rw [List.mem_singleton] at he
            subst he
            exact ⟨hprops.2, hce⟩
        · rw [if_neg hstart]
          have hlt : (cEdgeSet E \ insert (canonical_edge current np) visited).card
              < fuel := by
            have := sdiff_insert_card_lt hce hprops.2
            omega
          obtain ⟨ext', new', heq, hcE, hnd, hpr, hlen⟩ :=
            ih (insert (canonical_edge current np) visited) (path ++ [np]) current np
              hlt (List.getLast?_concat _)
          refine ⟨np :: ext', canonical_edge current np :: new', ?_, ?_, ?_, ?_, ?_⟩
          · rw [heq]
            simp only [Prod.mk.injEq]
            constructor
            · simp
            · ext x
              simp only [Finset.mem_union, Finset.mem_insert, List.mem_toFinset,
                List.mem_cons]
              tauto
          · have e1 : path ++ np :: ext' = (path ++ [np]) ++ ext' := by simp
            rw [e1, hcE, cEdgesOf_concat path current np hlast]
            simp
          · rw [List.nodup_cons]
            refine ⟨?_, hnd⟩
            intro hmem'
            exact (hpr _ hmem').1 (Finset.mem_insert_self _ _)
          · intro e he
            rcases List.mem_cons.mp he with rfl | he'
            · exact ⟨hprops.2, hce⟩
            · have hp2 := hpr e he'
              exact ⟨fun hv => hp2.1 (Finset.mem_insert_of_mem hv), hp2.2⟩
          · simp [hlen]

/-- The walk only ever grows the visited set. -/
theorem walkAux_visited_mono (E : List Edge) (start : Point) :
    ∀ (fuel : ℕ) (visited : Finset Edge) (path : List Point) (prev current : Point),
      visited ⊆ (walkAux E start fuel visited path prev current).2 := by
  intro fuel
  induction fuel with
  | zero => intro visited path prev current; exact Finset.Subset.refl _
  | succ fuel ih =>
    intro visited path prev current
    simp only [walkAux]
    split
    · exact Finset.Subset.refl _
    · next np rest hcand =>
      by_cases hdeg : (nbrs E current).length ≠ 2
      · rw [if_pos hdeg]
      · rw [if_neg hdeg]
        by_cases hstart : np = start
        · rw [if_pos hstart]
          exact Finset.subset_insert _ _
        · rw [if_neg hstart]
          exact (Finset.subset_insert _ _).trans (ih _ _ _ _)

/-- Any fuel beyond the number of unvisited canonical edges yields the same
result: the loop reaches its fixpoint within that many iterations. -/
theorem walkAux_fuel_irrel (E : List Edge) (start : Point) :
    ∀ (f₁ f₂ : ℕ) (visited : Finset Edge) (path : List Point) (prev current : Point),
      (cEdgeSet E \ visited).card < f₁ → (cEdgeSet E \ visited).card < f₂ →
      walkAux E start f₁ visited path prev current
        = walkAux E start f₂ visited path prev current := by
  intro f₁
  induction f₁ with
  | zero => intro f₂ visited path prev current h1 h2; omega
  | succ f₁ ih =>
    intro f₂ visited path prev current h1 h2
    cases f₂ with
    | zero => omega
    | succ f₂ =>
      simp only [walkAux]
      split
      · rfl
      · next np rest hcand =>
        have hnp : np ∈ (nbrs E current).filter
            (fun pt => decide (pt ≠ prev ∧ canonical_edge current pt ∉ visited)) := by
          rw [hcand]; exact List.mem_cons_self _ _
        have hmem := List.mem_filter.mp hnp
        have hprops := of_decide_eq_true hmem.2
        have hce : canonical_edge current np ∈ cEdgeSet E :=
          canonical_edge_mem_cEdgeSet hmem.1
        have hlt := sdiff_insert_card_lt hce hprops.2
        by_cases hdeg : (nbrs E current).length ≠ 2
        · rw [if_pos hdeg, if_pos hdeg]
        · rw [if_neg hdeg, if_neg hdeg]
          by_cases hstart : np = start
          · rw [if_pos hstart, if_pos hstart]
          · rw [if_neg hstart, if_neg hstart]
            exact ih f₂ _ _ _ _ (by omega) (by omega)

/-- Specification of one `walk` call started on an unvisited edge. -/
theorem walk_spec (E : List Edge) (visited : Finset Edge) (start nxt : Point)
    (h : canonical_edge start nxt ∉ visited) :
    ∃ L : List Edge,
      cEdgesOf (walk E visited start nxt).1 = L ∧
      (walk E visited start nxt).2 = visited ∪ L.toFinset ∧
      L.Nodup ∧
      L.head? = some (canonical_edge start nxt) ∧
      (∀ e ∈ L, e ∉ visited) ∧
      (∀ e ∈ L.tail, e ∈ cEdgeSet E) ∧
      (walk E visited start nxt).1.length = 1 + L.length ∧
      2 ≤ (walk E visited start nxt).1.length := by
  obtain ⟨ext, new, heq, hcE, hnd, hpr, hlen⟩ :=
    walkAux_spec E start
      ((cEdgeSet E \ insert (canonical_edge start nxt) visited).card + 1)
      (insert (canonical_edge start nxt) visited) [start, nxt] start nxt
      (by omega) rfl
  have hwalk : walk E visited start nxt
      = ([start, nxt] ++ ext,
         insert (canonical_edge start nxt) visited ∪ new.toFinset) := by
    rw [walk]
    exact heq
  refine ⟨canonical_edge start nxt :: new, ?_, ?_, ?_, rfl, ?_, ?_, ?_, ?_⟩
  · rw [hwalk]
    show cEdgesOf ([start, nxt] ++ ext) = _
    rw [hcE]
    rfl
  · rw [hwalk]
    show insert (canonical_edge start nxt) visited ∪ new.toFinset = _
    ext x
    simp only [Finset.mem_union, Finset.mem_insert, List.mem_toFinset, List.mem_cons]
    tauto
  · rw [List.nodup_cons]
    exact ⟨fun hm => (hpr _ hm).1 (Finset.mem_insert_self _ _), hnd⟩
  · intro e he
    rcases List.mem_cons.mp he with rfl | he'
    · exact h
    · exact fun hv => (hpr e he').1 (Finset.mem_insert_of_mem hv)
  · intro e he
    exact (hpr e he).2
  · rw [hwalk]
    show ([start, nxt] ++ ext).length = _
    simp only [List.length_append, List.length_cons, List.length_nil, hlen]
    omega
  · rw [hwalk]
    show 2 ≤ ([start, nxt] ++ ext).length
    simp

/-- The state invariant threaded through both phases: the accumulated lines'
canonical consecutive edges are duplicate-free, coincide with the visited
set, lie inside the input's canonical edge set, and every line has at least
two points. -/
def StInv (E : List Edge) (st : Finset Edge × List (List Point)) : Prop :=
  (st.2.flatMap cEdgesOf).Nodup ∧
  (st.2.flatMap cEdgesOf).toFinset = st.1 ∧
  st.1 ⊆ cEdgeSet E ∧
  ∀ l ∈ st.2, 2 ≤ l.length

theorem StInv_init (E : List Edge) : StInv E (∅, []) := by
  refine ⟨by simp, by simp, by simp, by simp⟩

theorem walkAppend_inv {E : List Edge} {st : Finset Edge × List (List Point)}
    {a b : Point} (hst : StInv E st) (hnv : canonical_edge a b ∉ st.1)
    (hce : canonical_edge a b ∈ cEdgeSet E) : StInv E (walkAppend E st a b) := by
  obtain ⟨hnd, hfin, hsub, hlen⟩ := hst
  obtain ⟨L, hLce, hLv, hLnd, hLhead, hLnv, hLtail, hLlen, hL2⟩ :=
    walk_spec E st.1 a b hnv
  have hLmem : ∀ e ∈ L, e ∈ cEdgeSet E := by
    intro e he
    cases L with
    | nil => cases he
    | cons x t =>
      have hx : x = canonical_edge a b := by
        simpa using hLhead
      rcases List.mem_cons.mp he with rfl | he'
      · exact hx ▸ hce
      · exact hLtail e he'
  have hflat : ((st.2 ++ [(walk E st.1 a b).1]).flatMap cEdgesOf)
      = st.2.flatMap cEdgesOf ++ L := by
    rw [List.flatMap_append]
    simp only [List.flatMap_cons, List.flatMap_nil, List.append_nil]
    rw [hLce]
  refine ⟨?_, ?_, ?_, ?_⟩
  · show ((st.2 ++ [(walk E st.1 a b).1]).flatMap cEdgesOf).Nodup
    rw [hflat, List.nodup_append]
    refine ⟨hnd, hLnd, ?_⟩
    intro x hx hxL
    have : x ∈ st.1 := by
      rw [← hfin, List.mem_toFinset]
      exact hx
    exact hLnv x hxL this
  · show ((st.2 ++ [(walk E st.1 a b).1]).flatMap cEdgesOf).toFinset
      = (walk E st.1 a b).2
    rw [hflat, List.toFinset_append, hfin, hLv]
  · show (walk E st.1 a b).2 ⊆ cEdgeSet E
    rw [hLv]
    intro x hx
    rcases Finset.mem_union.mp hx with hx1 | hx2
    · exact hsub hx1
    · exact hLmem x (List.mem_toFinset.mp hx2)
  · intro l hl
    rcases List.mem_append.mp hl with hl1 | hl2
    · exact hlen l hl1
    · rw [List.mem_singleton] at hl2
      exact hl2 ▸ hL2

theorem foldl_inv_mem {σ α : Type} {f : σ → α → σ} {P : σ → Prop} :
    ∀ (l : List α) (s : σ), (∀ s a, a ∈ l → P s → P (f s a)) → P s → P (l.foldl f s) := by
  intro l
  induction l with
  | nil => intro s _ hs; exact hs
  | cons a t ih =>
    intro s hstep hs
    rw [List.foldl_cons]
    exact ih _ (fun s' a' ha' => hstep s' a' (List.mem_cons_of_mem _ ha'))
      (hstep s a (List.mem_cons_self _ _) hs)

theorem walkAppend_grow (E : List Edge) (st : Finset Edge × List (List Point))
    (a b : Point) : st.1 ⊆ (walkAppend E st a b).1 := by
  show st.1 ⊆ (walk E st.1 a b).2
  rw [walk]
  exact (Finset.subset_insert _ _).trans (walkAux_visited_mono E a _ _ _ _ _)

theorem phase2Step_grow (E : List Edge) (st : Finset Edge × List (List Point))
    (e : Edge) : st.1 ⊆ (phase2Step E st e).1 := by
  unfold phase2Step
  by_cases hv : e ∈ st.1
  · rw [if_pos hv]
  · rw [if_neg hv]
    exact walkAppend_grow E st e.1 e.2

theorem foldl_phase2_grow (E : List Edge) :
    ∀ (l : List Edge) (st : Finset Edge × List (List Point)),
      st.1 ⊆ (l.foldl (phase2Step E) st).1 := by
  intro l
  induction l with
  | nil => intro st; exact Finset.Subset.refl _
  | cons a t ih =>
    intro st
    rw [List.foldl_cons]
    exact (phase2Step_grow E st a).trans (ih _)

theorem phase1_inv (E : List Edge) : StInv E (phase1 E) := by
  unfold phase1
  apply foldl_inv_mem _ _ ?_ (StInv_init E)
  intro st node _ hst
  by_cases hdeg : (nbrs E node).length = 2
  · rw [if_pos hdeg]
    exact hst
  · rw [if_neg hdeg]
    apply foldl_inv_mem _ _ ?_ hst
    intro st' nb hnb hst'
    by_cases hv : canonical_edge node nb ∈ st'.1
    · rw [if_pos hv]
      exact hst'
    · rw [if_neg hv]
      exact walkAppend_inv hst' hv (canonical_edge_mem_cEdgeSet hnb)

theorem mergeState_inv (E : List Edge)
    (hc : ∀ e ∈ E, canonical_edge e.1 e.2 = e) : StInv E (mergeState E) := by
  unfold mergeState
  apply foldl_inv_mem _ _ ?_ (phase1_inv E)
  intro st e he hst
  unfold phase2Step
  by_cases hv : e ∈ st.1
  · rw [if_pos hv]
    exact hst
  · rw [if_neg hv]
    have hcee := hc e he
    refine walkAppend_inv hst (by rw [hcee]; exact hv) ?_
    rw [cEdgeSet, List.mem_toFinset, List.mem_map]
    exact ⟨e, he, rfl⟩

theorem mergeState_covers (E : List Edge)
    (hc : ∀ e ∈ E, canonical_edge e.1 e.2 = e) :
    ∀ e ∈ E, e ∈ (mergeState E).1 := by
  suffices h : ∀ (l : List Edge) (st : Finset Edge × List (List Point)),
      (∀ e ∈ l, canonical_edge e.1 e.2 = e) →
      ∀ e ∈ l, e ∈ (l.foldl (phase2Step E) st).1 by
    exact fun e he => h E (phase1 E) hc e he
  intro l
  induction l with
  | nil => intro st _ e he; cases he
  | cons a t ih =>
    intro st hcl e he
    rw [List.foldl_cons]
    rcases List.mem_cons.mp he with rfl | he'
    · have h1 : e ∈ (phase2Step E st e).1 := by
        unfold phase2Step
        by_cases hv : e ∈ st.1
        · rw [if_pos hv]
          exact hv
        · rw [if_neg hv]
          show e ∈ (walk E st.1 e.1 e.2).2
          rw [walk]
          apply walkAux_visited_mono E e.1 _ _ _ _ _
          rw [hcl e (List.mem_cons_self _ _)]
          exact Finset.mem_insert_self _ _
      exact foldl_phase2_grow E t _ h1
    · exact ih _ (fun x hx => hcl x (List.mem_cons_of_mem _ hx)) e he'

/-- C1: the partition property of the Line Merger.  For a duplicate-free
list of canonical edges, the output polylines' consecutive-point edges
(recovered exactly by requantizing the dequantized coordinates, last
conjunct) form a permutation of the input: every edge appears in exactly one
polyline, exactly once, and no polyline contains an edge outside the
input. -/
theorem merge_partition_exact (E : List Edge) (hnd : E.Nodup)
    (hcanon : ∀ e ∈ E, canonical_edge e.1 e.2 = e) :
    ∃ plines : List (List Point),
      merge_edges_to_lines E = plines.map (fun l => l.map dequantize_point) ∧
      (∀ l ∈ plines, 2 ≤ l.length) ∧
      (plines.flatMap cEdgesOf).Perm E ∧
      (∀ l ∈ plines, ∀ p ∈ l,
        quantize_point (.arr ((dequantize_point p).map JVal.num)) = .ok p) := by
  cases E with
  | nil => exact ⟨[], rfl, by simp, by simp, by simp⟩
  | cons e0 E0 =>
    obtain ⟨hnd2, hfin, hsub, hlen⟩ := mergeState_inv (e0 :: E0) hcanon
    refine ⟨(mergeState (e0 :: E0)).2, ?_, hlen, ?_, ?_⟩
    · show merge_edges_to_lines (e0 :: E0) = _
      simp only [merge_edges_to_lines]
      congr 1
      apply List.filter_eq_self.mpr
      intro l hl
      exact decide_eq_true (hlen l hl)
    · apply List.perm_of_nodup_nodup_toFinset_eq hnd2 hnd
      rw [hfin]
      apply Finset.Subset.antisymm
      · intro x hx
        have hx2 := hsub hx
        rw [cEdgeSet, List.mem_toFinset, List.mem_map] at hx2
        obtain ⟨e, he, heq⟩ := hx2
        rw [List.mem_toFinset, ← heq, hcanon e he]
        exact he
      · intro x hx
        rw [List.mem_toFinset] at hx
        exact mergeState_covers _ hcanon x hx
    · intro l _ p _
      exact quantize_dequantize p

theorem merge_partition_exact_witness :
    ∃ plines : List (List Point),
      merge_edges_to_lines [(((0 : ℤ), (0 : ℤ)), ((0 : ℤ), (1 : ℤ)))]
        = plines.map (fun l => l.map dequantize_point) ∧
      (∀ l ∈ plines, 2 ≤ l.length) ∧
      (plines.flatMap cEdgesOf).Perm [(((0 : ℤ), (0 : ℤ)), ((0 : ℤ), (1 : ℤ)))] ∧
      (∀ l ∈ plines, ∀ p ∈ l,
        quantize_point (.arr ((dequantize_point p).map JVal.num)) = .ok p) :=
  merge_partition_exact [(((0 : ℤ), (0 : ℤ)), ((0 : ℤ), (1 : ℤ)))]
    (by decide) (by decide)

/-- C9: termination of the Line Merger's walks.  The fuel-indexed loop is
fuel-irrelevant beyond the number of unvisited canonical edges (the loop
reaches its fixpoint in finitely many iterations), every walk marks its
seeded edge visited, never forgets a visited edge, and its path length —
one point per consumed edge plus the seed — is bounded by the finite number
of previously unvisited canonical edges. -/
theorem walk_terminates (E : List Edge) (visited : Finset Edge) (start nxt : Point) :
    (∀ f₁ f₂ : ℕ,
      (cEdgeSet E \ insert (canonical_edge start nxt) visited).card < f₁ →
      (cEdgeSet E \ insert (canonical_edge start nxt) visited).card < f₂ →
      walkAux E start f₁ (insert (canonical_edge start nxt) visited)
          [start, nxt] start nxt
        = walkAux E start f₂ (insert (canonical_edge start nxt) visited)
          [start, nxt] start nxt) ∧
    canonical_edge start nxt ∈ (walk E visited start nxt).2 ∧
    visited ⊆ (walk E visited start nxt).2 ∧
    (walk E visited start nxt).1.length ≤ 2 + (cEdgeSet E \ visited).card := by
  refine ⟨fun f₁ f₂ h1 h2 => walkAux_fuel_irrel E start f₁ f₂ _ _ _ _ h1 h2, ?_, ?_, ?_⟩
  · rw [walk]
    exact walkAux_visited_mono E start _ _ _ _ _ (Finset.mem_insert_self _ _)
  · rw [walk]
    exact (Finset.subset_insert _ _).trans (walkAux_visited_mono E start _ _ _ _ _)
  · obtain ⟨ext, new, heq, hcE, hnd, hpr, hlen⟩ :=
      walkAux_spec E start
        ((cEdgeSet E \ insert (canonical_edge start nxt) visited).card + 1)
        (insert (canonical_edge start nxt) visited) [start, nxt] start nxt
        (by omega) rfl
    have hsub2 : new.toFinset ⊆ cEdgeSet E \ visited := by
      intro x hx
      rw [List.mem_toFinset] at hx
      exact Finset.mem_sdiff.mpr
        ⟨(hpr x hx).2, fun hv => (hpr x hx).1 (Finset.mem_insert_of_mem hv)⟩
    have hcard : new.length ≤ (cEdgeSet E \ visited).card := by
      calc new.length = new.toFinset.card := (List.toFinset_card_of_nodup hnd).symm
      _ ≤ _ := Finset.card_le_card hsub2
    rw [walk, heq]
    simp only [List.length_append, List.length_cons, List.length_nil, hlen]
    omega

theorem walk_terminates_witness :
    walkAux [(((0 : ℤ), (0 : ℤ)), ((0 : ℤ), (1 : ℤ)))] ((0 : ℤ), (0 : ℤ)) 5
        (insert (canonical_edge ((0 : ℤ), (0 : ℤ)) ((0 : ℤ), (1 : ℤ))) ∅)
        [((0 : ℤ), (0 : ℤ)), ((0 : ℤ), (1 : ℤ))] ((0 : ℤ), (0 : ℤ)) ((0 : ℤ), (1 : ℤ))
      = walkAux [(((0 : ℤ), (0 : ℤ)), ((0 : ℤ), (1 : ℤ)))] ((0 : ℤ), (0 : ℤ)) 7
        (insert (canonical_edge ((0 : ℤ), (0 : ℤ)) ((0 : ℤ), (1 : ℤ))) ∅)
        [((0 : ℤ), (0 : ℤ)), ((0 : ℤ), (1 : ℤ))] ((0 : ℤ), (0 : ℤ)) ((0 : ℤ), (1 : ℤ)) ∧
    canonical_edge ((0 : ℤ), (0 : ℤ)) ((0 : ℤ), (1 : ℤ))
      ∈ (walk [(((0 : ℤ), (0 : ℤ)), ((0 : ℤ), (1 : ℤ)))] ∅ ((0 : ℤ), (0 : ℤ))
          ((0 : ℤ), (1 : ℤ))).2 :=
  ⟨(walk_terminates [(((0 : ℤ), (0 : ℤ)), ((0 : ℤ), (1 : ℤ)))] ∅ ((0 : ℤ), (0 : ℤ))
      ((0 : ℤ), (1 : ℤ))).1 5 7 (by decide) (by decide),
   (walk_terminates [(((0 : ℤ), (0 : ℤ)), ((0 : ℤ), (1 : ℤ)))] ∅ ((0 : ℤ), (0 : ℤ))
      ((0 : ℤ), (1 : ℤ))).2.1⟩

/-! ### The Edge Indexer `iter_edges` (source lines 64–80)

The generator is embedded eagerly: an exception anywhere aborts the whole
enumeration (the caller consumes the generator inside a loop whose partial
effects are discarded when the exception propagates). -/

/-- One consecutive coordinate pair (source lines 72–80): skip pairs with
fewer than 2 components, quantize both endpoints, skip degenerate pairs,
otherwise yield the canonical edge. -/
def pairEdge (a_raw b_raw : JVal) : Except Unit (Option Edge) := do
  let la ← pyLen a_raw
  let lb ← pyLen b_raw
  if la < 2 ∨ lb < 2 then .ok none
  else do
    let a ← quantize_point a_raw
    let b ← quantize_point b_raw
    if a = b then .ok none else .ok (some (canonical_edge a b))

/-- All edges of the consecutive pairs of a ring. -/
def pairsM : List (JVal × JVal) → Except Unit (List Edge)
  | [] => .ok []
  | ab :: rest => do
    let o ← pairEdge ab.1 ab.2
    let es ← pairsM rest
    match o with
    | none => .ok es
    | some e => .ok (e :: es)

/-- One ring (source lines 68–71): non-lists and rings with fewer than 2
points are skipped. -/
def ringEdges (ring : JVal) : Except Unit (List Edge) :=
  match ring with
  | .arr pts => if pts.length < 2 then .ok [] else pairsM (pts.zip pts.tail)
  | _ => .ok []

/-- The rings of one polygon, in order. -/
def ringsM : List JVal → Except Unit (List Edge)
  | [] => .ok []
  | r :: rest => do
    let es ← ringEdges r
    let rest' ← ringsM rest
    .ok (es ++ rest')

/-- One polygon (source lines 65–67): non-list polygons are skipped. -/
def polyEdges (poly : JVal) : Except Unit (List Edge) :=
  match poly with
  | .arr rings => ringsM rings
  | _ => .ok []

/-- Source: `iter_edges(polygons)` (source lines 64–80). -/
def iter_edges : List JVal → Except Unit (List Edge)
  | [] => .ok []
  | p :: rest => do
    let es ← polyEdges p
    let rest' ← iter_edges rest
    .ok (es ++ rest')

/-- A coordinate value the indexer can consume without raising: a list, with
numeric first two entries whenever it is long enough to be quantized. -/
def wfCoord (c : JVal) : Prop :=
  ∃ l : List JVal, c = .arr l ∧
    (2 ≤ l.length →
      (∃ x : ℚ, l.getD 0 .null = .num x) ∧ (∃ y : ℚ, l.getD 1 .null = .num y))

def wfRing (r : JVal) : Prop :=
  ∀ l : List JVal, r = .arr l → ∀ c ∈ l, wfCoord c

def wfPoly (p : JVal) : Prop :=
  ∀ rs : List JVal, p = .arr rs → ∀ r ∈ rs, wfRing r

def wfPolys (ps : List JVal) : Prop := ∀ p ∈ ps, wfPoly p

/-- Source: `len` on the values `wfCoord` admits. -/
def jlen : JVal → ℕ
  | .arr l => l.length
  | .str s => s.length
  | .obj l => l.length
  | _ => 0

/-- The quantized point of a well-formed coordinate, written out from the
claim: round both scaled components. -/
def specQuant (c : JVal) : Point :=
  match c with
  | .arr l =>
    (pyRound ((match l.getD 0 .null with | .num x => x | _ => 0) * (SCALE : ℚ)),
     pyRound ((match l.getD 1 .null with | .num y => y | _ => 0) * (SCALE : ℚ)))
  | _ => (0, 0)

/-- The claim's description of one consecutive pair: nothing for a pair with
fewer than 2 components, nothing for endpoints quantizing to the same Point,
else one canonical edge. -/
def specPair (a b : JVal) : Option Edge :=
  if jlen a < 2 ∨ jlen b < 2 then none
  else if specQuant a = specQuant b then none
  else some (canonical_edge (specQuant a) (specQuant b))

/-- The claim's description of one ring: nothing for non-lists and rings
with fewer than 2 points, else one edge per qualifying consecutive pair. -/
def specRing (r : JVal) : List Edge :=
  match r with
  | .arr pts =>
    if pts.length < 2 then []
    else (pts.zip pts.tail).filterMap fun ab => specPair ab.1 ab.2
  | _ => []

def specPoly (p : JVal) : List Edge :=
  match p with
  | .arr rings => rings.flatMap specRing
  | _ => []

/-- The claim's description of the whole indexer. -/
def iter_edges_spec (polygons : List JVal) : List Edge :=
  polygons.flatMap specPoly

theorem quantize_wf {l : List JVal} (hx : ∃ x : ℚ, l.getD 0 .null = .num x)
    (hy : ∃ y : ℚ, l.getD 1 .null = .num y) :
    quantize_point (.arr l) = .ok (specQuant (.arr l)) := by
  obtain ⟨x, hx⟩ := hx
  obtain ⟨y, hy⟩ := hy
  simp only [quantize_point, specQuant, hx, hy, pyFloat, bind, Except.bind]

theorem pairEdge_wf {a b : JVal} (ha : wfCoord a) (hb : wfCoord b) :
    pairEdge a b = .ok (specPair a b) := by
  obtain ⟨la, rfl, hla⟩ := ha
  obtain ⟨lb, rfl, hlb⟩ := hb
  simp only [pairEdge, pyLen, bind, Except.bind, specPair, jlen]
  by_cases h : la.length < 2 ∨ lb.length < 2
  · rw [if_pos h, if_pos h]
  · rw [if_neg h, if_neg h]
    push_neg at h
    obtain ⟨hxa, hya⟩ := hla h.1
    obtain ⟨hxb, hyb⟩ := hlb h.2
    rw [quantize_wf hxa hya]
    simp only [Except.bind]
    rw [quantize_wf hxb hyb]
    simp only [Except.bind]
    by_cases he : specQuant (.arr la) = specQuant (.arr lb)
    · simp [he]
    · simp [he]

theorem pairsM_wf :
    ∀ l : List (JVal × JVal), (∀ ab ∈ l, wfCoord ab.1 ∧ wfCoord ab.2) →
      pairsM l = .ok (l.filterMap fun ab => specPair ab.1 ab.2) := by
  intro l
  induction l with
  | nil => intro _; rfl
  | cons ab rest ih =>
    intro hwf
    have hab := hwf ab (List.mem_cons_self _ _)
    rw [pairsM]
    rw [pairEdge_wf hab.1 hab.2]
    simp only [bind, Except.bind]
    rw [ih (fun x hx => hwf x (List.mem_cons_of_mem _ hx))]
    rw [List.filterMap_cons]
    cases hsp : specPair ab.1 ab.2 with
    | none => rfl
    | some e => rfl

theorem ringEdges_wf {r : JVal} (hwf : wfRing r) :
    ringEdges r = .ok (specRing r) := by
  cases r with
  | arr pts =>
    rw [ringEdges, specRing]
    by_cases h : pts.length < 2
    · rw [if_pos h, if_pos h]
    · rw [if_neg h, if_neg h]
      apply pairsM_wf
      intro ab hab
      obtain ⟨a1, a2⟩ := ab
      have hmem := List.of_mem_zip hab
      exact ⟨hwf pts rfl a1 hmem.1, hwf pts rfl a2 (List.mem_of_mem_tail hmem.2)⟩
  | null => rfl
  | bool b => rfl
  | num q => rfl
  | str s => rfl
  | obj o => rfl

theorem ringsM_wf :
    ∀ rs : List JVal, (∀ r ∈ rs, wfRing r) →
      ringsM rs = .ok (rs.flatMap specRing) := by
  intro rs
  induction rs with
  | nil => intro _; rfl
  | cons r rest ih =>
    intro hwf
    rw [ringsM, ringEdges_wf (hwf r (List.mem_cons_self _ _))]
    simp only [bind, Except.bind]
    rw [ih (fun x hx => hwf x (List.mem_cons_of_mem _ hx))]
    rfl

theorem polyEdges_wf {p : JVal} (hwf : wfPoly p) :
    polyEdges p = .ok (specPoly p) := by
  cases p with
  | arr rings =>
    rw [polyEdges, specPoly]
    exact ringsM_wf rings (hwf rings rfl)
  | null => rfl
  | bool b => rfl
  | num q => rfl
  | str s => rfl
  | obj o => rfl

/-- C8: the Edge Indexer never raises on well-formed coordinate data and
yields exactly one canonical edge per consecutive coordinate pair whose two
endpoints quantize to distinct Points, skipping non-list polygons and
rings, rings with fewer than 2 points, pairs with fewer than 2 components,
and degenerate pairs. -/
theorem iter_edges_contract (polygons : List JVal) (hwf : wfPolys polygons) :
    iter_edges polygons = .ok (iter_edges_spec polygons) := by
  induction polygons with
  | nil => rfl
  | cons p rest ih =>
    rw [iter_edges, polyEdges_wf (hwf p (List.mem_cons_self _ _))]
    simp only [bind, Except.bind]
    rw [ih (fun x hx => hwf x (List.mem_cons_of_mem _ hx))]
    rfl

theorem iter_edges_contract_witness :
    iter_edges [JVal.arr [JVal.arr [JVal.arr [JVal.num 0, JVal.num 0],
        JVal.arr [JVal.num 1, JVal.num 0], JVal.arr [JVal.num 0]]]]
      = .ok (iter_edges_spec [JVal.arr [JVal.arr [JVal.arr [JVal.num 0, JVal.num 0],
        JVal.arr [JVal.num 1, JVal.num 0], JVal.arr [JVal.num 0]]]]) := by
  apply iter_edges_contract
  intro p hp
  rw [List.mem_singleton] at hp
  subst hp
  intro rs hrs r hr
  injection hrs with hrs
  subst hrs
  rw [List.mem_singleton] at hr
  subst hr
  intro l hl c hc
  injection hl with hl
  subst hl
  rcases List.mem_cons.mp hc with rfl | hc'
  · exact ⟨[JVal.num 0, JVal.num 0], rfl, fun _ => ⟨⟨0, rfl⟩, ⟨0, rfl⟩⟩⟩
  rcases List.mem_cons.mp hc' with rfl | hc''
  · exact ⟨[JVal.num 1, JVal.num 0], rfl, fun _ => ⟨⟨1, rfl⟩, ⟨0, rfl⟩⟩⟩
  rcases List.mem_cons.mp hc'' with rfl | hc'''
  · exact ⟨[JVal.num 0], rfl, fun hlen => by simp at hlen⟩
  · cases hc'''

/-! ### `build_extra_pref_boundary_features` (source lines 195–262) -/

/-- The municipality of a fine feature (source line 209):
`canonical_municipality(props.get("municipality") or props.get("area_name")
or props.get("N03_004") or "")`. -/
def fineMuni (ft : Feat) : String :=
  canonical_municipality (.str (pyOr (pyOr (rawget ft.properties "municipality")
    (rawget ft.properties "area_name")) (rawget ft.properties "N03_004")))

/-- Source: `Counter[m] += 1`. -/
def counterInc (c : List (String × ℕ)) (m : String) : List (String × ℕ) :=
  match assoc c m with
  | some _ => c.map fun p => if p.1 = m then (p.1, p.2 + 1) else p
  | none => c ++ [(m, 1)]

/-- Source: `edge_muni_counts[edge][municipality] += 1`, creating the counter on a
fresh edge (source lines 218–221). -/
def bumpEdge (counts : List (Edge × List (String × ℕ))) (e : Edge) (m : String) :
    List (Edge × List (String × ℕ)) :=
  match assoc counts e with
  | some _ => counts.map fun p => if p.1 = e then (p.1, counterInc p.2 m) else p
  | none => counts ++ [(e, [(m, 1)])]

/-- Source: `municipality_pref[municipality] = pref_name` (source line 217). -/
def dictSet (d : List (String × String)) (k v : String) : List (String × String) :=
  match assoc d k with
  | some _ => d.map fun p => if p.1 = k then (k, v) else p
  | none => d ++ [(k, v)]

/-- One iteration of the accumulation loop (source lines 203–221). -/
def indexFine (targets excluded : List String)
    (st : List (Edge × List (String × ℕ)) × List (String × String)) (ft : Feat) :
    Except Unit (List (Edge × List (String × ℕ)) × List (String × String)) :=
  let pref_name := canonical_pref_name ft.properties
  if targets ≠ [] ∧ pref_name ∉ targets then .ok st
  else
    let municipality := fineMuni ft
    if municipality = "" ∨ municipality ∈ excluded then .ok st
    else
      let polygons := normalize_polygons ft.geometry
      if polygons.isEmpty then .ok st
      else do
        let pref' := dictSet st.2 municipality pref_name
        let es ← iter_edges polygons
        .ok (es.foldl (fun counts e => bumpEdge counts e municipality) st.1, pref')

/-- The accumulated `(edge_muni_counts, municipality_pref)` state. -/
def accumulateFine (fine : List Feat) (targets excluded : List String) :
    Except Unit (List (Edge × List (String × ℕ)) × List (String × String)) :=
  fine.foldlM (indexFine targets excluded) ([], [])

/-- Source: `f"FINE-{index:05d}"`. -/
def fineCode (index : ℕ) : String :=
  let s := toString index
  "FINE-" ++ String.mk (List.replicate (5 - s.length) '0') ++ s

def jCoord (pt : List ℚ) : JVal := .arr (pt.map .num)

def jLine (l : List (List ℚ)) : JVal := .arr (l.map jCoord)

/-- The Feature emitted for one municipality (source lines 241–261). -/
def mkBoundaryFeature (index : ℕ) (municipality pref : String)
    (lines : List (List (List ℚ))) : OutFeature :=
  { props := [("N03_001", pref), ("N03_002", ""), ("N03_003", ""),
              ("N03_004", municipality), ("N03_005", ""),
              ("N03_007", fineCode index), ("area_id", fineCode index),
              ("area_name", municipality), ("municipality", municipality),
              ("pref_name", pref), ("source", "fine-polygon-derived")]
    geometry :=
      if lines.length = 1 then
        [("type", JVal.str "LineString"), ("coordinates", jLine (lines.headD []))]
      else
        [("type", JVal.str "MultiLineString"),
         ("coordinates", JVal.arr (lines.map jLine))] }

/-- The output loop over an enumerated key list (source lines 237–261):
merge each municipality's edges, skip empty merges, emit a Feature. -/
def emitOver (pref : List (String × String)) (med : List (String × List Edge))
    (l : List (ℕ × String)) : List OutFeature :=
  l.filterMap fun im =>
    let lines := merge_edges_to_lines (edgesOf med im.2)
    if lines.isEmpty then none
    else some (mkBoundaryFeature (im.1 + 1) im.2 ((assoc pref im.2).getD "") lines)

/-- Source: `for index, municipality in enumerate(sorted(municipality_edges.keys()),
start=1)` with the per-municipality merge and emission. -/
def emitBoundary (pref : List (String × String)) (med : List (String × List Edge)) :
    List OutFeature :=
  emitOver pref med (List.insertionSort (· ≤ ·) (med.map Prod.fst)).enum

/-- Source: `build_extra_pref_boundary_features` (source lines 195–262). -/
def build_extra_pref_boundary_features (fine : List Feat)
    (targets excluded : List String) : Except Unit (List OutFeature) := do
  let st ← accumulateFine fine targets excluded
  .ok (emitBoundary st.2 (classifyCounts st.1))

/-- The `municipality` property of an output feature. -/
def ofeatMuni (f : OutFeature) : String := rawget f.props "municipality"

theorem ofeatMuni_mkBoundaryFeature (i : ℕ) (m p : String)
    (lines : List (List (List ℚ))) :
    ofeatMuni (mkBoundaryFeature i m p lines) = m := by
  simp [ofeatMuni, mkBoundaryFeature, rawget, assoc]

theorem emitOver_cons (pref : List (String × String)) (med : List (String × List Edge))
    (im : ℕ × String) (t : List (ℕ × String)) :
    emitOver pref med (im :: t) =
      (if (merge_edges_to_lines (edgesOf med im.2)).isEmpty then []
        else [mkBoundaryFeature (im.1 + 1) im.2 ((assoc pref im.2).getD "")
          (merge_edges_to_lines (edgesOf med im.2))]) ++ emitOver pref med t := by
  rw [emitOver, List.filterMap_cons]
  by_cases hemp : (merge_edges_to_lines (edgesOf med im.2)).isEmpty
  · simp only [hemp, if_true]
    rfl
  · simp only [hemp, Bool.false_eq_true, if_false]
    rfl

theorem emitOver_no_muni (pref : List (String × String))
    (med : List (String × List Edge)) :
    ∀ (l : List (ℕ × String)) (m : String), m ∉ l.map Prod.snd →
      ∀ f ∈ emitOver pref med l, ofeatMuni f ≠ m := by
  intro l
  induction l with
  | nil => intro m _ f hf; cases hf
  | cons im t ih =>
    intro m hm f hf
    rw [emitOver_cons] at hf
    have hm2 : m ∉ t.map Prod.snd := fun hh => hm (List.mem_cons_of_mem _ hh)
    have hmne : im.2 ≠ m := fun hh => hm (hh ▸ List.mem_cons_self _ _)
    rcases List.mem_append.mp hf with hf1 | hf2
    · by_cases hemp : (merge_edges_to_lines (edgesOf med im.2)).isEmpty
      · rw [if_pos hemp] at hf1
        cases hf1
      · rw [if_neg hemp] at hf1
        rw [List.mem_singleton] at hf1
        subst hf1
        rw [ofeatMuni_mkBoundaryFeature]
        exact hmne
    · exact ih m hm2 f hf2

theorem emitOver_filter (pref : List (String × String))
    (med : List (String × List Edge)) :
    ∀ (l : List (ℕ × String)), (l.map Prod.snd).Nodup → ∀ m ∈ l.map Prod.snd,
      (merge_edges_to_lines (edgesOf med m) = [] →
        (emitOver pref med l).filter (fun f => decide (ofeatMuni f = m)) = []) ∧
      (merge_edges_to_lines (edgesOf med m) ≠ [] → ∃ i,
        (emitOver pref med l).filter (fun f => decide (ofeatMuni f = m))
          = [mkBoundaryFeature i m ((assoc pref m).getD "")
              (merge_edges_to_lines (edgesOf med m))]) := by
  intro l
  induction l with
  | nil => intro _ m hm; simp at hm
  | cons im t ih =>
    intro hnd m hm
    rw [List.map_cons, List.nodup_cons] at hnd
    rw [emitOver_cons, List.filter_append]
    rcases List.mem_cons.mp hm with hm1 | hm2
    · subst hm1
      have hfilt_t : (emitOver pref med t).filter
          (fun f => decide (ofeatMuni f = im.2)) = [] := by
        rw [List.filter_eq_nil]
        intro f hf hdec
        exact emitOver_no_muni pref med t im.2 hnd.1 f hf (of_decide_eq_true hdec)
      constructor
      · intro hemp
        rw [hfilt_t, if_pos (by rw [hemp]; rfl)]
        rfl
      · intro hne
        refine ⟨im.1 + 1, ?_⟩
        rw [hfilt_t, if_neg (fun hh => hne (List.isEmpty_iff.mp hh))]
        rw [List.filter_cons]
        rw [ofeatMuni_mkBoundaryFeature]
        simp
    · have hmne : im.2 ≠ m := fun hh => hnd.1 (hh ▸ hm2)
      have hI := ih hnd.2 m hm2
      have hhead : ((if (merge_edges_to_lines (edgesOf med im.2)).isEmpty then []
          else [mkBoundaryFeature (im.1 + 1) im.2 ((assoc pref im.2).getD "")
            (merge_edges_to_lines (edgesOf med im.2))]).filter
            (fun f => decide (ofeatMuni f = m))) = [] := by
        by_cases hemp : (merge_edges_to_lines (edgesOf med im.2)).isEmpty
        · rw [if_pos hemp]
          rfl
        · rw [if_neg hemp, List.filter_cons, ofeatMuni_mkBoundaryFeature]
          simp [hmne]
      rw [hhead]
      constructor
      · intro hemp
        rw [List.nil_append]
        exact hI.1 hemp
      · intro hne
        obtain ⟨i, hi⟩ := hI.2 hne
        exact ⟨i, by rw [List.nil_append]; exact hi⟩

/-- C10: a municipality whose classified edge set merges to no polyline
yields no Feature; one merged polyline yields a LineString carrying it; two
or more merged polylines yield a MultiLineString carrying all of them. -/
theorem boundary_feature_arity (pref : List (String × String))
    (med : List (String × List Edge)) (hnd : (med.map Prod.fst).Nodup)
    (m : String) (es : List Edge) (hmem : (m, es) ∈ med) :
    (merge_edges_to_lines es = [] →
      ∀ f ∈ emitBoundary pref med, ofeatMuni f ≠ m) ∧
    (merge_edges_to_lines es ≠ [] → ∃ f,
      (emitBoundary pref med).filter (fun f => decide (ofeatMuni f = m)) = [f] ∧
      ((merge_edges_to_lines es).length = 1 →
        f.geometry = [("type", JVal.str "LineString"),
          ("coordinates", jLine ((merge_edges_to_lines es).headD []))]) ∧
      ((merge_edges_to_lines es).length ≠ 1 →
        f.geometry = [("type", JVal.str "MultiLineString"),
          ("coordinates", JVal.arr ((merge_edges_to_lines es).map jLine))])) := by
  have hes : edgesOf med m = es := by
    rw [edgesOf, assoc_of_mem_nodup hnd hmem]
    rfl
  have hmk : m ∈ med.map Prod.fst := List.mem_map.mpr ⟨(m, es), hmem, rfl⟩
  have hsortnd : ((List.insertionSort (· ≤ ·) (med.map Prod.fst)).enum.map
      Prod.snd).Nodup := by
    rw [List.enum_map_snd]
    exact (List.perm_insertionSort _ _).symm.nodup hnd
  have hmem2 : m ∈ (List.insertionSort (· ≤ ·) (med.map Prod.fst)).enum.map
      Prod.snd := by
    rw [List.enum_map_snd]
    exact (List.perm_insertionSort _ _).mem_iff.mpr hmk
  have hmain := emitOver_filter pref med _ hsortnd m hmem2
  rw [hes] at hmain
  constructor
  · intro hemp f hf hfm
    have h0 := hmain.1 hemp
    rw [List.filter_eq_nil] at h0
    exact h0 f hf (decide_eq_true hfm)
  · intro hne
    obtain ⟨i, hi⟩ := hmain.2 hne
    refine ⟨mkBoundaryFeature i m ((assoc pref m).getD "") (merge_edges_to_lines es),
      hi, ?_, ?_⟩
    · intro hlen
      simp only [mkBoundaryFeature]
      rw [if_pos hlen]
    · intro hlen
      simp only [mkBoundaryFeature]
      rw [if_neg hlen]

theorem boundary_feature_arity_witness :
    ∃ f, (emitBoundary [] [("A", [(((0 : ℤ), (0 : ℤ)), ((0 : ℤ), (1 : ℤ)))])]).filter
        (fun f => decide (ofeatMuni f = "A")) = [f] ∧
      ((merge_edges_to_lines [(((0 : ℤ), (0 : ℤ)), ((0 : ℤ), (1 : ℤ)))]).length = 1 →
        f.geometry = [("type", JVal.str "LineString"),
          ("coordinates",
            jLine ((merge_edges_to_lines
              [(((0 : ℤ), (0 : ℤ)), ((0 : ℤ), (1 : ℤ)))]).headD []))]) ∧
      ((merge_edges_to_lines [(((0 : ℤ), (0 : ℤ)), ((0 : ℤ), (1 : ℤ)))]).length ≠ 1 →
        f.geometry = [("type", JVal.str "MultiLineString"),
          ("coordinates", JVal.arr ((merge_edges_to_lines
            [(((0 : ℤ), (0 : ℤ)), ((0 : ℤ), (1 : ℤ)))]).map jLine))]) :=
  (boundary_feature_arity [] [("A", [(((0 : ℤ), (0 : ℤ)), ((0 : ℤ), (1 : ℤ)))])]
    (by decide) "A" [(((0 : ℤ), (0 : ℤ)), ((0 : ℤ), (1 : ℤ)))]
    (by decide)).2 (by decide)

/-! ### C7: the "unassigned territory" sentinel -/

theorem groupStep_sentinel (g : List (String × GEntry)) (ft : Feat)
    (h : canonical_municipality (.dict ft.properties) = sentinel) :
    groupStep g ft = g := by
  unfold groupStep
  by_cases h1 : pyStrip (rawget ft.properties "N03_007") = "" ∨
      canonical_municipality (.dict ft.properties) = ""
  · rw [if_pos h1]
  · rw [if_neg h1, if_pos h]

theorem indexFine_skip (targets excluded : List String)
    (st : List (Edge × List (String × ℕ)) × List (String × String)) (ft : Feat)
    (h : fineMuni ft ∈ excluded) :
    indexFine targets excluded st ft = .ok st := by
  unfold indexFine
  by_cases h1 : targets ≠ [] ∧ canonical_pref_name ft.properties ∉ targets
  · rw [if_pos h1]
  · rw [if_neg h1, if_pos (Or.inr h)]

/-- C7 (amended): a feature named with the "unassigned territory" sentinel
contributes nothing to the Municipality Grouper, unconditionally; in the
boundary derivation it is skipped only when the sentinel is in the supplied
`excluded_municipalities` set.  (As `main` builds that set from the grouped
output — which never contains the sentinel — a sentinel-named fine feature
does contribute edges there; see the counterexample.) -/
theorem sentinel_exclusion_amended :
    (∀ (fs1 fs2 : List Feat) (ft : Feat),
      canonical_municipality (.dict ft.properties) = sentinel →
      build_grouped_features (fs1 ++ ft :: fs2)
        = build_grouped_features (fs1 ++ fs2)) ∧
    (∀ (fine1 fine2 : List Feat) (ft : Feat) (targets excluded : List String),
      fineMuni ft = sentinel → sentinel ∈ excluded →
      build_extra_pref_boundary_features (fine1 ++ ft :: fine2) targets excluded
        = build_extra_pref_boundary_features (fine1 ++ fine2) targets excluded) := by
  constructor
  · intro fs1 fs2 ft hmuni
    have hfold : (fs1 ++ ft :: fs2).foldl groupStep []
        = (fs1 ++ fs2).foldl groupStep [] := by
      rw [List.foldl_append, List.foldl_append, List.foldl_cons,
        groupStep_sentinel _ _ hmuni]
    simp only [build_grouped_features, hfold]
  · intro fine1 fine2 ft targets excluded hmuni hexc
    have hskip : ∀ st, indexFine targets excluded st ft = .ok st :=
      fun st => indexFine_skip targets excluded st ft (hmuni ▸ hexc)
    have hacc : accumulateFine (fine1 ++ ft :: fine2) targets excluded
        = accumulateFine (fine1 ++ fine2) targets excluded := by
      rw [accumulateFine, accumulateFine, List.foldlM_append, List.foldlM_append]
      have hcons : ∀ st, List.foldlM (indexFine targets excluded) st (ft :: fine2)
          = List.foldlM (indexFine targets excluded) st fine2 := by
        intro st
        rw [List.foldlM_cons, hskip st]
        rfl
      cases hacc1 : List.foldlM (indexFine targets excluded) ([], []) fine1 with
      | error err => rfl
      | ok st1 =>
        show Except.bind _ _ = Except.bind _ _
        rw [Except.bind]
        exact hcons st1
    rw [build_extra_pref_boundary_features, build_extra_pref_boundary_features, hacc]

/-- A fine feature carrying the sentinel municipality name and one square
polygon. -/
def sentinelFeat : Feat :=
  ⟨[("pref_name", "P"), ("municipality", "所属未定地")],
   [("type", JVal.str "Polygon"),
    ("coordinates", JVal.arr [JVal.arr [
      JVal.arr [JVal.num 0, JVal.num 0],
      JVal.arr [JVal.num 1, JVal.num 0],
      JVal.arr [JVal.num 1, JVal.num 1],
      JVal.arr [JVal.num 0, JVal.num 1],
      JVal.arr [JVal.num 0, JVal.num 0]]])]⟩

/-- The municipalities of a successful boundary build. -/
def okMunis : Except Unit (List OutFeature) → List String
  | .ok l => l.map ofeatMuni
  | .error _ => []

theorem pyRound_zero_mul : pyRound ((0 : ℚ) * ((SCALE : ℤ) : ℚ)) = 0 := by
  have h : (0 : ℚ) * ((SCALE : ℤ) : ℚ) = ((0 : ℤ) : ℚ) := by norm_num
  rw [h, pyRound_intCast]

theorem pyRound_one_mul : pyRound ((1 : ℚ) * ((SCALE : ℤ) : ℚ)) = 1000000 := by
  have h : (1 : ℚ) * ((SCALE : ℤ) : ℚ) = ((1000000 : ℤ) : ℚ) := by norm_num [SCALE]
  rw [h, pyRound_intCast]

theorem quantize00 : quantize_point (JVal.arr [JVal.num 0, JVal.num 0])
    = .ok ((0 : ℤ), (0 : ℤ)) := by
  simp only [quantize_point, pyFloat, List.getD, List.get?, Option.getD_some,
    bind, Except.bind, pyRound_zero_mul]

theorem quantize10 : quantize_point (JVal.arr [JVal.num 1, JVal.num 0])
    = .ok ((1000000 : ℤ), (0 : ℤ)) := by
  simp only [quantize_point, pyFloat, List.getD, List.get?, Option.getD_some,
    bind, Except.bind, pyRound_zero_mul, pyRound_one_mul]

theorem quantize11 : quantize_point (JVal.arr [JVal.num 1, JVal.num 1])
    = .ok ((1000000 : ℤ), (1000000 : ℤ)) := by
  simp only [quantize_point, pyFloat, List.getD, List.get?, Option.getD_some,
    bind, Except.bind, pyRound_one_mul]

theorem quantize01 : quantize_point (JVal.arr [JVal.num 0, JVal.num 1])
    = .ok ((0 : ℤ), (1000000 : ℤ)) := by
  simp only [quantize_point, pyFloat, List.getD, List.get?, Option.getD_some,
    bind, Except.bind, pyRound_zero_mul, pyRound_one_mul]

theorem pairEdge_nums {x1 y1 x2 y2 : ℚ} {p1 p2 : Point}
    (h1 : quantize_point (JVal.arr [JVal.num x1, JVal.num y1]) = .ok p1)
    (h2 : quantize_point (JVal.arr [JVal.num x2, JVal.num y2]) = .ok p2)
    (hne : p1 ≠ p2) :
    pairEdge (JVal.arr [JVal.num x1, JVal.num y1])
        (JVal.arr [JVal.num x2, JVal.num y2])
      = .ok (some (canonical_edge p1 p2)) := by
  simp only [pairEdge, pyLen, bind, Except.bind, List.length_cons, List.length_nil]
  rw [if_neg (by norm_num), h1, h2]
  show (if p1 = p2 then Except.ok none
      else Except.ok (some (canonical_edge p1 p2))) = _
  rw [if_neg hne]

/-- With `main`'s empty-of-sentinel excluded set, a sentinel-named fine
feature contributes edges to the boundary derivation and yields an output
Feature — refuting "a sentinel-named feature is always excluded". -/
theorem sentinel_boundary_counterexample :
    okMunis (build_extra_pref_boundary_features [sentinelFeat] ["P"] [])
      = [sentinel] := by
  have hp1 : pairEdge (JVal.arr [JVal.num 0, JVal.num 0])
      (JVal.arr [JVal.num 1, JVal.num 0])
      = .ok (some (((0 : ℤ), (0 : ℤ)), ((1000000 : ℤ), (0 : ℤ)))) := by
    rw [pairEdge_nums quantize00 quantize10 (by decide)]
    rfl
  have hp2 : pairEdge (JVal.arr [JVal.num 1, JVal.num 0])
      (JVal.arr [JVal.num 1, JVal.num 1])
      = .ok (some (((1000000 : ℤ), (0 : ℤ)), ((1000000 : ℤ), (1000000 : ℤ)))) := by
    rw [pairEdge_nums quantize10 quantize11 (by decide)]
    rfl
  have hp3 : pairEdge (JVal.arr [JVal.num 1, JVal.num 1])
      (JVal.arr [JVal.num 0, JVal.num 1])
      = .ok (some (((0 : ℤ), (1000000 : ℤ)), ((1000000 : ℤ), (1000000 : ℤ)))) := by
    rw [pairEdge_nums quantize11 quantize01 (by decide)]
    rfl
  have hp4 : pairEdge (JVal.arr [JVal.num 0, JVal.num 1])
      (JVal.arr [JVal.num 0, JVal.num 0])
      = .ok (some (((0 : ℤ), (0 : ℤ)), ((0 : ℤ), (1000000 : ℤ)))) := by
    rw [pairEdge_nums quantize01 quantize00 (by decide)]
    rfl
  have hring : ringEdges (JVal.arr [
      JVal.arr [JVal.num 0, JVal.num 0],
      JVal.arr [JVal.num 1, JVal.num 0],
      JVal.arr [JVal.num 1, JVal.num 1],
      JVal.arr [JVal.num 0, JVal.num 1],
      JVal.arr [JVal.num 0, JVal.num 0]])
      = .ok [(((0 : ℤ), (0 : ℤ)), ((1000000 : ℤ), (0 : ℤ))),
             (((1000000 : ℤ), (0 : ℤ)), ((1000000 : ℤ), (1000000 : ℤ))),
             (((0 : ℤ), (1000000 : ℤ)), ((1000000 : ℤ), (1000000 : ℤ))),
             (((0 : ℤ), (0 : ℤ)), ((0 : ℤ), (1000000 : ℤ)))] := by
    rw [ringEdges, if_neg (by norm_num)]
    show pairsM [(JVal.arr [JVal.num 0, JVal.num 0], JVal.arr [JVal.num 1, JVal.num 0]),
      (JVal.arr [JVal.num 1, JVal.num 0], JVal.arr [JVal.num 1, JVal.num 1]),
      (JVal.arr [JVal.num 1, JVal.num 1], JVal.arr [JVal.num 0, JVal.num 1]),
      (JVal.arr [JVal.num 0, JVal.num 1], JVal.arr [JVal.num 0, JVal.num 0])] = _
    simp only [pairsM, hp1, hp2, hp3, hp4, bind, Except.bind]
  have hiter : iter_edges (normalize_polygons sentinelFeat.geometry)
      = .ok [(((0 : ℤ), (0 : ℤ)), ((1000000 : ℤ), (0 : ℤ))),
             (((1000000 : ℤ), (0 : ℤ)), ((1000000 : ℤ), (1000000 : ℤ))),
             (((0 : ℤ), (1000000 : ℤ)), ((1000000 : ℤ), (1000000 : ℤ))),
             (((0 : ℤ), (0 : ℤ)), ((0 : ℤ), (1000000 : ℤ)))] := by
    have hnorm : normalize_polygons sentinelFeat.geometry
        = [JVal.arr [JVal.arr [
            JVal.arr [JVal.num 0, JVal.num 0],
            JVal.arr [JVal.num 1, JVal.num 0],
            JVal.arr [JVal.num 1, JVal.num 1],
            JVal.arr [JVal.num 0, JVal.num 1],
            JVal.arr [JVal.num 0, JVal.num 0]]]] := rfl
    rw [hnorm, iter_edges, polyEdges, ringsM, hring]
    simp only [bind, Except.bind, ringsM, iter_edges]
    rfl
  have hidx : indexFine ["P"] [] ([], []) sentinelFeat
      = .ok ([((((0 : ℤ), (0 : ℤ)), ((1000000 : ℤ), (0 : ℤ))), [("所属未定地", 1)]),
              ((((1000000 : ℤ), (0 : ℤ)), ((1000000 : ℤ), (1000000 : ℤ))), [("所属未定地", 1)]),
              ((((0 : ℤ), (1000000 : ℤ)), ((1000000 : ℤ), (1000000 : ℤ))), [("所属未定地", 1)]),
              ((((0 : ℤ), (0 : ℤ)), ((0 : ℤ), (1000000 : ℤ))), [("所属未定地", 1)])],
             [("所属未定地", "P")]) := by
    rw [indexFine]
    rw [if_neg (by decide), if_neg (by decide), if_neg (by decide)]
    rw [hiter]
    simp only [bind, Except.bind]
    rfl
  have haccum : accumulateFine [sentinelFeat] ["P"] []
      = .ok ([((((0 : ℤ), (0 : ℤ)), ((1000000 : ℤ), (0 : ℤ))), [("所属未定地", 1)]),
              ((((1000000 : ℤ), (0 : ℤ)), ((1000000 : ℤ), (1000000 : ℤ))), [("所属未定地", 1)]),
              ((((0 : ℤ), (1000000 : ℤ)), ((1000000 : ℤ), (1000000 : ℤ))), [("所属未定地", 1)]),
              ((((0 : ℤ), (0 : ℤ)), ((0 : ℤ), (1000000 : ℤ))), [("所属未定地", 1)])],
             [("所属未定地", "P")]) := by
    rw [accumulateFine, List.foldlM_cons, hidx]
    rfl
  rw [build_extra_pref_boundary_features, haccum]
  simp only [bind, Except.bind, okMunis]
  decide

theorem sentinel_exclusion_amended_witness :
    build_grouped_features [⟨[("N03_004", "所属未定地"), ("N03_007", "99999")], []⟩]
      = build_grouped_features [] ∧
    build_extra_pref_boundary_features [sentinelFeat] ["P"] ["所属未定地"]
      = build_extra_pref_boundary_features [] ["P"] ["所属未定地"] :=
  ⟨sentinel_exclusion_amended.1 [] []
      ⟨[("N03_004", "所属未定地"), ("N03_007", "99999")], []⟩ (by decide),
   sentinel_exclusion_amended.2 [] [] sentinelFeat ["P"] ["所属未定地"]
      (by decide) (by decide)⟩

end AreaKit
